import Mathlib

/-!
# Verification of the `aster` terminal disk-usage analyzer core

A shallow embedding, in Lean 4, of the core data model and operations of the
`aster` Go program:

* `Node` — the scanned-tree entity (`internal/scanner/node.go`): name, path,
  directory flag, byte size, children, error flag, and the sort-generation
  bookkeeping (`sortGen`, `SortedMode`).  Go's `atomic.Int64` size counter is
  modelled as a plain `Int`: the UI mutates the tree only from its
  single-threaded event loop, and the scanner model below is a deterministic
  sequentialisation of the concurrent walk, so atomicity is invisible in the
  final values.
* View helpers (`internal/ui/view.go`): `scrollWindow`, `truncate`, and the
  proportional-bar length computed by `renderRow`.
* The Bubble Tea `Model` (`internal/ui/model.go`) with its navigation stack,
  cursor, sort mode and generation counter, plus the update handlers
  (`internal/ui/update.go`): `handleKeyConfirmDelete` and `handleSortToggle`,
  and the lazy-sorting `visibleChildren` / `clampCursor` helpers.
* The concurrent scanner (`internal/scanner/scanner.go`): `Scan`, `scanDir`,
  `processBatch` and `sendProgress`, over an explicit filesystem model.

Go pointer aliasing (the navigation stack holds pointers into the root's
tree) is modelled by representing the stack as a list of child-index paths
into a purely functional tree; in-place node mutation becomes a functional
update at a path (`modifyAt`).

The file is laid out as definitions first, then theorems.
-/

/-! ## The Node tree (internal/scanner/node.go)

`Node` is recursive through `children : List Node`, so it is an inductive
type; field accessors and functional record updates are given explicitly.
Go zero values: a freshly allocated node has `size = 0`, `children = nil`,
`Err = nil` (modelled as `err = false`), `sortGen = 0`, `SortedMode = 0`.
-/

inductive Node where
  | mk (name : String) (path : String) (isDir : Bool) (size : Int)
       (children : List Node) (err : Bool) (sortGen : Nat) (sortedMode : Int)

def Node.name : Node → String
  | mk n _ _ _ _ _ _ _ => n

def Node.path : Node → String
  | mk _ p _ _ _ _ _ _ => p

def Node.isDir : Node → Bool
  | mk _ _ d _ _ _ _ _ => d

/-- `Size()` — the (atomic) size counter read. -/
def Node.size : Node → Int
  | mk _ _ _ s _ _ _ _ => s

def Node.children : Node → List Node
  | mk _ _ _ _ c _ _ _ => c

def Node.err : Node → Bool
  | mk _ _ _ _ _ e _ _ => e

def Node.sortGen : Node → Nat
  | mk _ _ _ _ _ _ g _ => g

def Node.sortedMode : Node → Int
  | mk _ _ _ _ _ _ _ m => m

/-- `AddSize(bytes)` — atomic add to the size counter. -/
def Node.addSize (bytes : Int) : Node → Node
  | mk n p d s c e g m => mk n p d (s + bytes) c e g m

/-- `SetSize(bytes)`. -/
def Node.setSize (bytes : Int) : Node → Node
  | mk n p d _ c e g m => mk n p d bytes c e g m

/-- Functional update of the `Children` field. -/
def Node.setChildren (cs : List Node) : Node → Node
  | mk n p d s _ e g m => mk n p d s cs e g m

/-- Functional update of the `Err` field. -/
def Node.setErr (b : Bool) : Node → Node
  | mk n p d s c _ g m => mk n p d s c b g m

/-- `IsSorted(gen, mode)` — O(1) staleness probe. -/
def Node.isSorted (n : Node) (gen : Nat) (mode : Int) : Bool :=
  n.sortGen == gen && n.sortedMode == mode

/-- `MarkSorted(gen, mode)`. -/
def Node.markSorted (gen : Nat) (mode : Int) : Node → Node
  | mk n p d s c e _ _ => mk n p d s c e gen mode

/-! ## Index paths into the tree

The Go navigation stack stores `*Node` pointers into the root's tree.  A
pointer to a node is modelled as the path of child indices from the root to
that node; dereferencing is `nodeAt`, and an in-place mutation through the
pointer is `modifyAt` (a no-op on an invalid path: Go pointers obtained from
the live tree are always valid).
-/

/-- Dereference an index path. -/
def nodeAt (n : Node) : List Nat → Option Node
  | [] => some n
  | i :: p =>
    match n.children[i]? with
    | some c => nodeAt c p
    | none => none

/-- Mutate the node an index path points at. -/
def modifyAt (n : Node) (p : List Nat) (f : Node → Node) : Node :=
  match p with
  | [] => f n
  | i :: q =>
    match n.children[i]? with
    | some c => n.setChildren (n.children.set i (modifyAt c q f))
    | none => n

/-- The size field stored at a pointer. -/
def sizeAt (n : Node) (p : List Nat) : Option Int := (nodeAt n p).map Node.size

/-! ## View helpers (internal/ui/view.go)

`scrollWindow`, `truncate` and the proportional-bar computation of
`renderRow`.  Go `int` values are modelled as `Int`; Go's integer division
truncates toward zero (`Int.tdiv`).  Go strings are UTF-8, and `[]rune(s)`
is the sequence of Unicode scalar values, modelled as `List Char`.
-/

/-- Go integer division (`/` on `int`) truncates toward zero. -/
def goDiv (a b : Int) : Int := Int.tdiv a b

/-- `scrollWindow` returns `[start, end)` to keep the cursor visible in
`height` list rows. -/
def scrollWindow (cursor total height : Int) : Int × Int :=
  if total ≤ height then (0, total)
  else
    let start0 := cursor - goDiv height 2
    let start1 := if start0 < 0 then 0 else start0
    let stop1 := start1 + height
    if stop1 > total then
      let stop2 := total
      let start2 := stop2 - height
      let start3 := if start2 < 0 then 0 else start2
      (start3, stop2)
    else (start1, stop1)

/-- `truncate` shortens a string with an ellipsis if it exceeds `maxLen`
runes. -/
def truncate (s : List Char) (maxLen : Int) : List Char :=
  if maxLen ≤ 0 then []
  else if (s.length : Int) ≤ maxLen then s
  else if maxLen ≤ 1 then s.take maxLen.toNat
  else s.take (maxLen.toNat - 1) ++ ['…']

/-- Go `int(f)` conversion from `float64` truncates toward zero.  The
`float64` arithmetic of `renderRow` is modelled exactly over `ℚ` (the sizes
and widths involved are far below the 2^53 precision bound, and the only
question the claims ask — rounding versus truncation — is decided by exact
arithmetic). -/
def floatToInt (q : ℚ) : Int := if 0 ≤ q then ⌊q⌋ else ⌈q⌉

/-- The proportional-bar length computed by `renderRow` (view.go, the
`pct`/`barLen` block): `pct` is the node's share of the parent size, the bar
is `int(pct * float64(barMaxW))`, bumped to 1 for non-empty nodes that would
truncate to zero, and capped at `barMaxW`. -/
def renderRowBarLen (size parentSize barMaxW : Int) : Int :=
  let pct : ℚ := if 0 < parentSize then (size : ℚ) / (parentSize : ℚ) else 0
  let barLen := floatToInt (pct * (barMaxW : ℚ))
  let barLen := if barLen = 0 ∧ 0 < size then 1 else barLen
  if barLen > barMaxW then barMaxW else barLen

/-! ## Sorting children (internal/scanner/node.go)

`SortBySize` / `SortByName` call Go's `slices.SortFunc`, whose contract is:
the slice is permuted into an order agreeing with the comparator (the sort
is unstable, so tie order is unspecified).  The model realises that contract
with a deterministic insertion sort — which is also literally the
`sortNodes` implementation of an earlier revision of `node.go`.
-/

/-- Insert into a sorted prefix (ascending w.r.t. `le`). -/
def insertLe (le : Node → Node → Bool) (x : Node) : List Node → List Node
  | [] => [x]
  | y :: ys => if le x y then x :: y :: ys else y :: insertLe le x ys

/-- Insertion sort (ascending w.r.t. `le`). -/
def isort (le : Node → Node → Bool) : List Node → List Node
  | [] => []
  | x :: xs => insertLe le x (isort le xs)

/-- Comparator of `SortBySize`: descending by size (`cmp.Compare(b.Size(), a.Size())`). -/
def bySizeDesc (a b : Node) : Bool := decide (b.size ≤ a.size)

/-- Comparator of `SortByName`: ascending by name (`cmp.Compare(a.Name, b.Name)`);
Go compares bytes, which for UTF-8 strings is ordering by Unicode scalar
value, the order of `≤` on Lean strings. -/
def byNameAsc (a b : Node) : Bool := decide (a.name ≤ b.name)

/-- `SortBySize()` — children descending by size. -/
def Node.sortBySize (n : Node) : Node := n.setChildren (isort bySizeDesc n.children)

/-- `SortByName()` — children ascending by name. -/
def Node.sortByName (n : Node) : Node := n.setChildren (isort byNameAsc n.children)

/-! ## The NavModel (internal/ui/model.go, internal/ui/update.go)

`Model` carries the fields the verified handlers read and write.  `root` is
modelled as always present: in Go it is a `*Node` that is nil only before
`scanDoneMsg` installs the scanned tree, and the Browse / ConfirmDelete
handlers verified here run only after that.  UI-only fields (spinner,
dimensions, caches, progress counters) are omitted — no modelled operation
touches them.
-/

/-- `SortMode`: 0 = by-size-descending, 1 = by-name-ascending. -/
inductive SortMode where
  | bySize
  | byName
deriving DecidableEq

/-- `sortModeToInt8` — the `int8` stored in `Node.SortedMode`. -/
def sortModeToInt8 : SortMode → Int
  | .bySize => 0
  | .byName => 1

/-- `AppState`. -/
inductive AppState where
  | stateScanning
  | stateBrowsing
  | stateConfirmDelete
  | stateError
deriving DecidableEq

structure Model where
  root : Node
  /-- The breadcrumb stack of directory pointers, as index paths from root;
  `stack[len-1]` is the current directory. -/
  stack : List (List Nat)
  cursor : Int
  sort : SortMode
  /-- The model-side sort generation counter (`uint64`; it only ever grows by
  `+1` from its initial value 1, so overflow is unreachable and it is
  modelled as `Nat`). -/
  sortGen : Nat
  state : AppState
  confirmPath : String

/-- The pointer held by `currentDir()`: last of the stack, or the root. -/
def curPath (m : Model) : List Nat := m.stack.getLastD []

/-- `currentDir()` — the directory currently being browsed. -/
def currentDir (m : Model) : Option Node := nodeAt m.root (curPath m)

/-- The comparator realised by a sort mode: `SortBySize` orders by
descending size, `SortByName` by ascending name. -/
def modeLe : SortMode → Node → Node → Bool
  | .bySize => bySizeDesc
  | .byName => byNameAsc

/-- A list is in the order the given comparator produces. -/
def SortedB (le : Node → Node → Bool) (l : List Node) : Prop :=
  List.Pairwise (fun a b => le a b = true) l

/-- `sortNode` — sorts a single node's children (not recursive); the
generation fields are NOT updated here, the caller stamps them. -/
def sortNode (n : Node) (mode : SortMode) : Node :=
  match mode with
  | .bySize => n.sortBySize
  | .byName => n.sortByName

/-- The in-place mutation `visibleChildren` applies through the
`currentDir()` pointer on its slow path: sort by the active mode, then
`MarkSorted(gen, mode)`. -/
def visSortF (m : Model) : Node → Node :=
  fun x => (sortNode x m.sort).markSorted m.sortGen (sortModeToInt8 m.sort)

/-- `visibleChildren` — the lazily sorted children of the current directory.
If the directory is already sorted for the current generation and mode it is
returned as-is (the fast path); otherwise it is sorted in place and stamped
with `MarkSorted`.  As the Go method mutates the tree through the
`currentDir()` pointer, the model returns the updated `Model` along with the
children. -/
def visibleChildren (m : Model) : Model × List Node :=
  match nodeAt m.root (curPath m) with
  | none => (m, [])
  | some d =>
    if d.isSorted m.sortGen (sortModeToInt8 m.sort) then (m, d.children)
    else
      ({ m with root := modifyAt m.root (curPath m) (visSortF m) },
       (visSortF m d).children)

/-- `clampCursor` — keeps the cursor within the visible children. -/
def clampCursor (m : Model) : Model :=
  let r := visibleChildren m
  let m1 := r.1
  let n : Int := r.2.length
  if n = 0 then { m1 with cursor := 0 }
  else
    let m2 := if m1.cursor ≥ n then { m1 with cursor := n - 1 } else m1
    if m2.cursor < 0 then { m2 with cursor := 0 } else m2

/-- The sort mode the `s` key toggles to. -/
def toggledMode : SortMode → SortMode
  | .bySize => .byName
  | .byName => .bySize

/-- `handleSortToggle` — flips the sort mode, advances the sort generation
(O(1); nodes re-sort lazily on first access), and resets the cursor. -/
def handleSortToggle (m : Model) : Model :=
  let m1 := if m.sort = SortMode.bySize
    then { m with sort := SortMode.byName }
    else { m with sort := SortMode.bySize }
  { m1 with sortGen := m1.sortGen + 1, cursor := 0 }

/-- `handleKeyConfirmDelete` — the ConfirmDelete-state key handler.
`trashErr` is the outcome of the injected `trashItem` hook (`true` = the
hook returned an error).  On confirm with a successful trash: find the entry
in the current directory's children whose `Path` equals the captured
`confirmPath`, record its size, remove it, subtract the size from every
ancestor on the stack and from the root, clamp the cursor; in all confirm /
cancel cases transition to Browsing and clear the captured path.  (The
`m.root != nil` guard of the Go code is always true here — see `Model.root`;
the `none` arm of `currentDir` is unreachable for a stack of live pointers
and conservatively leaves the tree untouched.) -/
def handleKeyConfirmDelete (m : Model) (key : String) (trashErr : Bool) : Model :=
  match key with
  | "d" | "y" | "enter" =>
    if trashErr then { m with state := .stateBrowsing, confirmPath := "" }
    else
      match nodeAt m.root (curPath m) with
      | none => { m with state := .stateBrowsing, confirmPath := "" }
      | some parent =>
        let idx := parent.children.findIdx? (fun c => c.path == m.confirmPath)
        let removedSize : Int :=
          match idx with
          | some i => ((parent.children[i]?).map Node.size).getD 0
          | none => 0
        let root1 :=
          match idx with
          | some i => modifyAt m.root (curPath m)
              (fun d => d.setChildren (d.children.eraseIdx i))
          | none => m.root
        let root2 := m.stack.foldl
          (fun r q => modifyAt r q (Node.addSize (-removedSize))) root1
        let root3 := root2.addSize (-removedSize)
        let m2 := clampCursor { m with root := root3 }
        { m2 with state := .stateBrowsing, confirmPath := "" }
  | "esc" | "n" | "q" => { m with state := .stateBrowsing, confirmPath := "" }
  | _ => m

/-- Well-formedness of the navigation stack, as established by the Browsing
navigation handlers: the stack holds pointers to distinct live directories
along the descent to the current one — pairwise distinct non-root paths,
each a prefix of the deepest (current) one, each dereferenceable. -/
def StackOK (root : Node) (stack : List (List Nat)) : Prop :=
  stack.Pairwise (· ≠ ·) ∧
  ∀ q ∈ stack, q ≠ [] ∧ q <+: stack.getLastD [] ∧ (nodeAt root q).isSome

/-! ## The scanner (internal/scanner/scanner.go)

The filesystem world is an explicit tree: a directory carries the outcomes
of `os.Open` and `f.Close` on it plus its entries in on-disk (encounter)
order; a file entry carries its `entry.Info()` outcome and size; a symlink
entry is identified by its directory-entry type and never followed.

The concurrent walk (one goroutine per directory, bounded by a semaphore
that caps only the directory I/O) is sequentialised: subdirectory tasks run
at their spawn point, and the per-batch worker fan-out processes the batch
entries in order.  The final tree and sizes are schedule-independent (size
aggregation is commutative addition, children are appended by the owning
task in encounter order), so this is a faithful model of the completed
values; the cancellation token and progress channel observe one concrete
schedule of checks.

`context.Context` cancellation is modelled by when `ctx.Err()` first turns
non-nil relative to the sequence of checks the sequentialised scan performs:
`none` — never cancelled; `some k` — the k-th upcoming check is the first
to observe cancellation.  This covers "cancelled before the scan" (`some 0`)
and "cancelled during the scan" (any other `k`).

The progress channel is a bounded buffer owned by the caller: `present`
(`progressCh != nil`), its `free` capacity, and the values successfully
sent.  `sendProgress` mirrors scanner.go: no send on a nil channel, a zero
size, or a cancelled context; the `select`/`default` drops the value when
the buffer is full.
-/

mutual
inductive FS where
  | mk (openOk : Bool) (closeOk : Bool) (entries : List FSEntry)
inductive FSEntry where
  | file (name : String) (size : Int) (infoOk : Bool)
  | dir (name : String) (sub : FS)
  | symlink (name : String)
end

/-- The cancellation token (see the section comment). -/
abbrev Ctx := Option Nat

/-- One `ctx.Err()` check: the observed status and the advanced token. -/
def ctxCheck : Ctx → Bool × Ctx
  | none => (false, none)
  | some 0 => (true, some 0)
  | some (k+1) => (false, some k)

/-- The progress channel (see the section comment). -/
structure Sink where
  present : Bool
  free : Nat
  sent : List Int

/-- `sendProgress(ctx, ch, sz)`. -/
def sendProgress (ctx : Ctx) (snk : Sink) (sz : Int) : Ctx × Sink :=
  if snk.present = false then (ctx, snk)
  else if sz = 0 then (ctx, snk)
  else
    let c := ctxCheck ctx
    if c.1 then (c.2, snk)
    else if snk.free = 0 then (c.2, snk)
    else (c.2, { snk with free := snk.free - 1, sent := snk.sent ++ [sz] })

/-- `readDirBatchSize`. -/
def readDirBatchSize : Nat := 1024

/-- The child `Node` appended by `processBatch` for a directory entry:
name from the entry, `IsDir` from `entry.IsDir()`, forced to `false` for a
symlink (`entry.Type()&fs.ModeSymlink != 0`); all other fields are Go zero
values. -/
def entryChild : FSEntry → Node
  | .file nm _ _ => .mk nm "" false 0 [] false 0 0
  | .dir nm _ => .mk nm "" true 0 [] false 0 0
  | .symlink nm => .mk nm "" false 0 [] false 0 0

/-- End of a `processBatch`: `if batchFilesSize > 0 { node.AddSize(...);
sendProgress(...) }`. -/
def flushBatch (ctx : Ctx) (snk : Sink) (node : Node) (acc : Int) :
    Node × Ctx × Sink :=
  if 0 < acc then
    let r := sendProgress ctx snk acc
    (node.addSize acc, r.1, r.2)
  else (node, ctx, snk)

mutual
/-- `scanDir` — scans one directory: the entry cancellation check, `os.Open`
(a failure is recorded on `node.Err` and stops this subtree), the batch loop
over the entries (`scanEntries`), and `f.Close` (a failure is recorded on
`node.Err` if no earlier error was). -/
def scanFS (ctx : Ctx) (snk : Sink) (nm : String) (fs : FS) :
    Node × Ctx × Sink :=
  let node : Node := .mk nm "" true 0 [] false 0 0
  let c0 := ctxCheck ctx
  if c0.1 then (node, c0.2, snk)
  else
    match fs with
    | .mk openOk closeOk entries =>
      if openOk = false then (node.setErr true, c0.2, snk)
      else
        let r := scanEntries c0.2 snk node entries 0 0
        let node2 := if closeOk = false && r.1.err = false
          then r.1.setErr true else r.1
        (node2, r.2.1, r.2.2)

/-- The `f.ReadDir(readDirBatchSize)` loop together with `processBatch`,
sequentialised one entry at a time: `cnt` is the number of entries still to
be taken in the current batch and `acc` the current batch's file-size
subtotal.  `cnt = 0` is a batch boundary: the previous batch is flushed
(`flushBatch`), the loop condition `ctx.Err() == nil` is checked, and the
next batch of up to 1024 entries begins; exhausting the entries flushes the
last batch and performs the loop check that observes end-of-directory.  The
resulting node, emissions and check sequence are exactly those of the Go
batch loop: `processBatch` appends the whole batch's children before its
worker loop touches them, so appending each child at its processing step
yields the same final children (encounter order) and sizes. -/
def scanEntries (ctx : Ctx) (snk : Sink) (node : Node) (rem : List FSEntry)
    (cnt : Nat) (acc : Int) : Node × Ctx × Sink :=
  match rem with
  | [] =>
    let r := flushBatch ctx snk node acc
    let c := ctxCheck r.2.1
    (r.1, c.2, r.2.2)
  | e :: rest =>
    if cnt = 0 then
      let r := flushBatch ctx snk node acc
      let c := ctxCheck r.2.1
      if c.1 then (r.1, c.2, r.2.2)
      else
        let p := processEntry c.2 r.2.2 r.1 e
        scanEntries p.2.1 p.2.2.1 p.1 rest (readDirBatchSize - 1) p.2.2.2
    else
      let p := processEntry ctx snk node e
      scanEntries p.2.1 p.2.2.1 p.1 rest (cnt - 1) (acc + p.2.2.2)

/-- Processing of one batch entry by the `processBatch` worker loop: the
child node is appended (encounter order); a symlink entry is then skipped
(`continue`); a file entry is `entry.Info()`-stat'ed — on success the child
size is set and the size joins the batch subtotal, on failure the entry is
left as appended (zero size, no error recorded); a subdirectory entry is
scanned as its own task, whose completion adds the child's size to this
node (`node.Parent.AddSize(node.Size())`).  Returns the updated node, token
and sink, and the entry's contribution to the batch file-size subtotal. -/
def processEntry (ctx : Ctx) (snk : Sink) (node : Node) (e : FSEntry) :
    Node × Ctx × Sink × Int :=
  match e with
  | .symlink _ =>
    (node.setChildren (node.children ++ [entryChild e]), ctx, snk, 0)
  | .file _ sz infoOk =>
    if infoOk then
      (node.setChildren (node.children ++ [(entryChild e).setSize sz]),
        ctx, snk, sz)
    else
      (node.setChildren (node.children ++ [entryChild e]), ctx, snk, 0)
  | .dir nm sub =>
    let r := scanFS ctx snk nm sub
    ((node.setChildren (node.children ++ [r.1])).addSize r.1.size,
      r.2.1, r.2.2, 0)
end

/-- The `Lstat` result for the root path. -/
structure LstatInfo where
  isDir : Bool
  size : Int

/-- Root-level scan failures: `filepath.Abs` error or `os.Lstat` error. -/
inductive ScanError where
  | pathAbs
  | pathLstat
deriving DecidableEq

/-- `Scan(ctx, root, progressCh)` — `absOk`/`absRoot` model the
`filepath.Abs` resolution, `lstat` the `os.Lstat` of the resolved root
(`none` = error), and `fs` the directory world under the root when it is a
directory.  A non-directory root yields the single-node tree with the Lstat
size and one `sendProgress` of that size; a directory root is walked by
`scanFS`, and the error is always nil past the Lstat. -/
def scanGo (ctx : Ctx) (snk : Sink) (absOk : Bool) (absRoot : String)
    (lstat : Option LstatInfo) (fs : FS) :
    Except ScanError (Node × Ctx × Sink) :=
  if absOk = false then .error .pathAbs
  else
    match lstat with
    | none => .error .pathLstat
    | some info =>
      if info.isDir = false then
        let rootNode := (Node.mk absRoot "" false 0 [] false 0 0).setSize info.size
        let r := sendProgress ctx snk info.size
        .ok (rootNode, r.1, r.2)
      else
        .ok (scanFS ctx snk absRoot fs)

/-! The per-entry correspondence between the filesystem world and the tree
the scanner produced for it, position by position (the scanner appends
children in encounter order; a cancelled scan holds a prefix, which the
positionwise statement covers).  `ScanInv fs n` relates a directory's world
to its node; `KidOK e c` relates one directory entry to the child produced
for it: a symlink is exactly its appended leaf (never followed), a file
carries its stat'ed size on success and stays an untouched zero-size,
error-free leaf on stat failure, and a subdirectory's child corresponds
recursively. -/

mutual
inductive ScanInv : FS → Node → Prop where
  | mk {o cl : Bool} {ents : List FSEntry} {n : Node}
      (h : ∀ (i : Nat) (e : FSEntry) (c : Node),
        ents[i]? = some e → n.children[i]? = some c → KidOK e c) :
      ScanInv (.mk o cl ents) n
inductive KidOK : FSEntry → Node → Prop where
  | file {nm : String} {sz : Int} {ok : Bool} {c : Node}
      (h : c = if ok then (entryChild (.file nm sz ok)).setSize sz
               else entryChild (.file nm sz ok)) :
      KidOK (.file nm sz ok) c
  | dir {nm : String} {sub : FS} {c : Node} (hs : ScanInv sub c) :
      KidOK (.dir nm sub) c
  | symlink {nm : String} {c : Node} (h : c = entryChild (.symlink nm)) :
      KidOK (.symlink nm) c
end

/-! ## Concrete fixtures

Small concrete trees and models, used by the witness theorems to instantiate
the quantified results on computable inputs (mirroring the repository's own
test fixtures: a root with a 100-byte `foo` and a 50-byte `bar`). -/

def fooNode : Node := .mk "foo" "root/foo" false 100 [] false 0 0

def barNode : Node := .mk "bar" "root/bar" false 50 [] false 0 0

def fixRoot : Node := .mk "root" "root" true 150 [fooNode, barNode] false 1 0

/-- A Browsing-state model over `fixRoot`, as installed by `scanDoneMsg`
(root freshly sorted at generation 1, empty stack). -/
def fixModel : Model :=
  { root := fixRoot, stack := [], cursor := 0, sort := .bySize,
    sortGen := 1, state := .stateBrowsing, confirmPath := "" }

/-- `fixModel` after `d` captured `foo` for deletion. -/
def fixConfirm : Model :=
  { fixModel with state := .stateConfirmDelete, confirmPath := "root/foo" }

/-- A ConfirmDelete-state model whose captured path matches no child. -/
def fixConfirmGone : Model :=
  { fixModel with state := .stateConfirmDelete, confirmPath := "root/zap" }

/-- The tree produced by the success path of `handleKeyConfirmDelete` when
the matched child sits at index `i` of the current directory and `sz` bytes
were recorded for it: remove the child, subtract `sz` at every ancestor on
the stack, then subtract `sz` at the root (factored out of the handler for
the statements of the proofs about it). -/
def removeAndDeduct (m : Model) (i : Nat) (sz : Int) : Node :=
  ((m.stack.foldl (fun a q => modifyAt a q (Node.addSize (-sz)))
      (modifyAt m.root (curPath m)
        (fun d => d.setChildren (d.children.eraseIdx i)))).addSize (-sz))

/-- The entry list of a directory world. -/
def FS.entries : FS → List FSEntry
  | .mk _ _ es => es

/-- Position-wise correspondence between a list of directory entries and the
children produced for them (children are appended in encounter order; a
cancelled scan holds a prefix, so nothing is required at positions either
list lacks). -/
def Corr (es : List FSEntry) (cs : List Node) : Prop :=
  ∀ (i : Nat) (e : FSEntry) (c : Node),
    es[i]? = some e → cs[i]? = some c → KidOK e c

/-! Concrete scanner fixtures for the witness theorems. -/

/-- A world with one symlink entry. -/
def wSymFS : FS := .mk true true [.symlink "s"]

/-- A world with one file entry whose `entry.Info()` stat fails. -/
def wBadStatFS : FS := .mk true true [.file "a" 5 false]

/-- An absent progress channel (`progressCh == nil`). -/
def wNilSink : Sink := ⟨false, 0, []⟩

/-- A present progress channel with one free slot. -/
def wSink1 : Sink := ⟨true, 1, []⟩

/-- A deeper fixture: `root` (150 B) holding directory `sub` (100 B, itself
holding file `f` of 100 B) and file `bar` (50 B). -/
def fix2File : Node := .mk "f" "root/sub/f" false 100 [] false 1 0

def fix2Sub : Node := .mk "sub" "root/sub" true 100 [fix2File] false 1 0

def fix2Root : Node := .mk "root" "root" true 150 [fix2Sub, barNode] false 1 0

/-- Browsing inside `sub` (stack = [pointer to child 0]), confirming the
deletion of `root/sub/f`. -/
def fix2Confirm : Model :=
  { root := fix2Root, stack := [[0]], cursor := 0, sort := .bySize,
    sortGen := 1, state := .stateConfirmDelete, confirmPath := "root/sub/f" }

/-! ## Basic lemmas about Node field accessors and updates -/

@[simp] theorem Node.name_mk (n p d s c e g m) : (mk n p d s c e g m).name = n := rfl
@[simp] theorem Node.path_mk (n p d s c e g m) : (mk n p d s c e g m).path = p := rfl
@[simp] theorem Node.isDir_mk (n p d s c e g m) : (mk n p d s c e g m).isDir = d := rfl
@[simp] theorem Node.size_mk (n p d s c e g m) : (mk n p d s c e g m).size = s := rfl
@[simp] theorem Node.children_mk (n p d s c e g m) : (mk n p d s c e g m).children = c := rfl
@[simp] theorem Node.err_mk (n p d s c e g m) : (mk n p d s c e g m).err = e := rfl
@[simp] theorem Node.sortGen_mk (n p d s c e g m) : (mk n p d s c e g m).sortGen = g := rfl
@[simp] theorem Node.sortedMode_mk (n p d s c e g m) : (mk n p d s c e g m).sortedMode = m := rfl

@[simp] theorem Node.size_addSize (x : Node) (b : Int) : (x.addSize b).size = x.size + b := by
  cases x; rfl
@[simp] theorem Node.children_addSize (x : Node) (b : Int) :
    (x.addSize b).children = x.children := by cases x; rfl
@[simp] theorem Node.sortGen_addSize (x : Node) (b : Int) :
    (x.addSize b).sortGen = x.sortGen := by cases x; rfl
@[simp] theorem Node.sortedMode_addSize (x : Node) (b : Int) :
    (x.addSize b).sortedMode = x.sortedMode := by cases x; rfl
@[simp] theorem Node.path_addSize (x : Node) (b : Int) : (x.addSize b).path = x.path := by
  cases x; rfl
@[simp] theorem Node.size_setChildren (x : Node) (cs) : (x.setChildren cs).size = x.size := by
  cases x; rfl
@[simp] theorem Node.children_setChildren (x : Node) (cs) :
    (x.setChildren cs).children = cs := by cases x; rfl
@[simp] theorem Node.sortGen_setChildren (x : Node) (cs) :
    (x.setChildren cs).sortGen = x.sortGen := by cases x; rfl
@[simp] theorem Node.sortedMode_setChildren (x : Node) (cs) :
    (x.setChildren cs).sortedMode = x.sortedMode := by cases x; rfl
@[simp] theorem Node.path_setChildren (x : Node) (cs) :
    (x.setChildren cs).path = x.path := by cases x; rfl

theorem Node.addSize_zero (x : Node) : x.addSize 0 = x := by
  cases x with
  | mk n p d s c e g m => simp [addSize]

/-! ## Lemmas about index paths -/

@[simp] theorem nodeAt_nil (n : Node) : nodeAt n [] = some n := rfl

theorem nodeAt_cons (n : Node) (i : Nat) (p : List Nat) :
    nodeAt n (i :: p) = match n.children[i]? with
      | some c => nodeAt c p
      | none => none := rfl

/-- `nodeAt` descends only through `children`; nodes with equal children
agree on every non-empty path. -/
theorem nodeAt_congr_children (x y : Node) (hc : y.children = x.children)
    (i : Nat) (p : List Nat) : nodeAt y (i :: p) = nodeAt x (i :: p) := by
  simp [nodeAt_cons, hc]

/-- The size of the root whose pointer was mutated through a non-empty path
is untouched: `modifyAt` only rebuilds `children` along the way down. -/
@[simp] theorem size_modifyAt_cons (n : Node) (i : Nat) (q : List Nat) (f) :
    (modifyAt n (i :: q) f).size = n.size := by
  unfold modifyAt
  cases n.children[i]? <;> simp

@[simp] theorem sortGen_modifyAt_cons (n : Node) (i : Nat) (q : List Nat) (f) :
    (modifyAt n (i :: q) f).sortGen = n.sortGen := by
  unfold modifyAt
  cases n.children[i]? <;> simp

@[simp] theorem sortedMode_modifyAt_cons (n : Node) (i : Nat) (q : List Nat) (f) :
    (modifyAt n (i :: q) f).sortedMode = n.sortedMode := by
  unfold modifyAt
  cases n.children[i]? <;> simp

@[simp] theorem path_modifyAt_cons (n : Node) (i : Nat) (q : List Nat) (f) :
    (modifyAt n (i :: q) f).path = n.path := by
  unfold modifyAt
  cases n.children[i]? <;> simp

private theorem list_getElem_set_self {α : Type} (l : List α) (i : Nat) (a c : α)
    (h : l[i]? = some c) : (l.set i a)[i]? = some a := by
  induction l generalizing i with
  | nil => simp at h
  | cons x xs ih =>
    cases i with
    | zero => simp [List.set]
    | succ j => simpa [List.set] using ih j (by simpa using h)

private theorem list_getElem_set_ne {α : Type} (l : List α) (i j : Nat) (a : α)
    (h : j ≠ i) : (l.set i a)[j]? = l[j]? := by
  induction l generalizing i j with
  | nil => simp
  | cons x xs ih =>
    cases i with
    | zero => cases j with
      | zero => exact absurd rfl h
      | succ k => simp [List.set]
    | succ i2 => cases j with
      | zero => simp [List.set]
      | succ k => simpa [List.set] using ih i2 k (fun hh => h (by simp [hh]))

private theorem list_set_getElem_eq {α : Type} (l : List α) (i : Nat) (c : α)
    (h : l[i]? = some c) : l.set i c = l := by
  induction l generalizing i with
  | nil => rfl
  | cons x xs ih =>
    cases i with
    | zero => simp at h; simp [List.set, h]
    | succ j => simp [List.set, ih j (by simpa using h)]

/-- Reading back the mutated pointer. -/
theorem nodeAt_modifyAt_self (p : List Nat) (n : Node) (f : Node → Node) :
    nodeAt (modifyAt n p f) p = (nodeAt n p).map f := by
  induction p generalizing n with
  | nil => rfl
  | cons i q ih =>
    unfold modifyAt
    cases hg : n.children[i]? with
    | none => simp [nodeAt_cons, hg]
    | some c =>
      simp only [nodeAt_cons, Node.children_setChildren,
        list_getElem_set_self _ _ _ _ hg]
      simpa [nodeAt_cons, hg] using ih c

/-- Splitting a path. -/
theorem nodeAt_append (p q : List Nat) (n : Node) :
    nodeAt n (p ++ q) = (nodeAt n p).bind (fun x => nodeAt x q) := by
  induction p generalizing n with
  | nil => simp
  | cons i r ih =>
    simp only [List.cons_append, nodeAt_cons]
    cases n.children[i]? <;> simp [ih]

/-- Splitting a mutation path. -/
theorem modifyAt_append (p q : List Nat) (n : Node) (f : Node → Node) :
    modifyAt n (p ++ q) f = modifyAt n p (fun x => modifyAt x q f) := by
  induction p generalizing n with
  | nil => rfl
  | cons i r ih =>
    show modifyAt n (i :: (r ++ q)) f = _
    unfold modifyAt
    cases n.children[i]? <;> simp [ih]

/-- A pointwise-identity mutation leaves the tree untouched. -/
theorem modifyAt_id (p : List Nat) (n : Node) (f : Node → Node)
    (hf : ∀ x, f x = x) : modifyAt n p f = n := by
  induction p generalizing n with
  | nil => exact hf n
  | cons i q ih =>
    unfold modifyAt
    cases hg : n.children[i]? with
    | none => rfl
    | some c =>
      show Node.setChildren (n.children.set i (modifyAt c q f)) n = n
      rw [ih c, list_set_getElem_eq _ _ _ hg]
      cases n
      rfl

/-- Mutating strictly ABOVE an observation point, with a mutation that keeps
its target's children (such as `addSize`), leaves the deeper pointer's view
unchanged. -/
theorem nodeAt_modifyAt_above (p : List Nat) (j : Nat) (r : List Nat) (n : Node)
    (f : Node → Node) (hch : ∀ x, (f x).children = x.children) :
    nodeAt (modifyAt n p f) (p ++ j :: r) = nodeAt n (p ++ j :: r) := by
  rw [nodeAt_append, nodeAt_append, nodeAt_modifyAt_self]
  cases hx : nodeAt n p with
  | none => rfl
  | some x => simpa using nodeAt_congr_children x (f x) (hch x) j r

/-- Mutating strictly BELOW an observation point: the shallower pointer sees
the same node with the mutation pushed into its subtree. -/
theorem nodeAt_modifyAt_below (q : List Nat) (j : Nat) (r : List Nat) (n : Node)
    (f : Node → Node) :
    nodeAt (modifyAt n (q ++ j :: r) f) q
      = (nodeAt n q).map (fun x => modifyAt x (j :: r) f) := by
  rw [modifyAt_append, nodeAt_modifyAt_self]

/-! ## The scroll window (C7) -/

/-- **C7**: for all integers `cursor`, `total`, `height` with
`0 ≤ cursor < total` and `height ≥ 1`, `scrollWindow` returns a half-open
interval `[start, end)` with `start ≤ cursor < end`,
`end − start = min(total, height)`, `0 ≤ start`, and `end ≤ total`. -/
theorem scrollWindow_spec (cursor total height : Int)
    (h1 : 0 ≤ cursor) (h2 : cursor < total) (h3 : 1 ≤ height) :
    (scrollWindow cursor total height).1 ≤ cursor ∧
    cursor < (scrollWindow cursor total height).2 ∧
    (scrollWindow cursor total height).2 - (scrollWindow cursor total height).1
      = min total height ∧
    0 ≤ (scrollWindow cursor total height).1 ∧
    (scrollWindow cursor total height).2 ≤ total := by
  have hd : goDiv height 2 = height / 2 := by
    unfold goDiv
    rw [Int.tdiv_eq_ediv] <;> omega
  simp only [scrollWindow, hd]
  split_ifs <;> simp_all <;> omega

/-- Witness for C7 at `(cursor, total, height) = (5, 12, 4)`. -/
theorem scrollWindow_spec_witness :
    (0 ≤ (5:Int) ∧ (5:Int) < 12 ∧ (1:Int) ≤ 4) ∧
    ((scrollWindow 5 12 4).1 ≤ 5 ∧
     5 < (scrollWindow 5 12 4).2 ∧
     (scrollWindow 5 12 4).2 - (scrollWindow 5 12 4).1 = min 12 4 ∧
     0 ≤ (scrollWindow 5 12 4).1 ∧
     (scrollWindow 5 12 4).2 ≤ 12) :=
  ⟨by decide, scrollWindow_spec 5 12 4 (by decide) (by decide) (by decide)⟩

/-! ## Rune truncation (C8) -/

/-- **C8**: for every string `s` (as its sequence of runes) and every
`n ≥ 0`, the rune count of `truncate s n` is at most `n`; whenever the rune
count of `s` is at most `n`, `truncate` returns `s` unchanged; and in the
proper-truncation case (`2 ≤ n < rune count`) the result has exactly `n`
runes, of which the last is the ellipsis — truncation counts Unicode scalar
values (the model's `Char`), not bytes. -/
theorem truncate_spec (s : List Char) (n : Int) (hn : 0 ≤ n) :
    ((truncate s n).length : Int) ≤ n ∧
    ((s.length : Int) ≤ n → truncate s n = s) ∧
    (2 ≤ n → n < (s.length : Int) →
      ((truncate s n).length : Int) = n ∧
      (truncate s n).getLast? = some '…') := by
  unfold truncate
  split_ifs with hc1 hc2 hc3
  · refine ⟨by simpa using hn, fun hle => ?_, fun h2 _ => by omega⟩
    have : s.length = 0 := by omega
    simp [List.length_eq_zero.mp this]
  · exact ⟨hc2, fun _ => rfl, fun _ hlt => by omega⟩
  · refine ⟨?_, fun hle => absurd hle hc2, fun h2 _ => by omega⟩
    simp only [List.length_take]
    omega
  · have hslen : n.toNat - 1 ≤ s.length := by omega
    have hlen : (s.take (n.toNat - 1) ++ ['…']).length = n.toNat := by
      simp only [List.length_append, List.length_take, List.length_cons,
        List.length_nil]
      omega
    refine ⟨by rw [hlen]; omega, fun hle => absurd hle hc2, fun h2 hlt => ?_⟩
    exact ⟨by rw [hlen]; omega, by rw [List.getLast?_concat]⟩

/-- Witness for C8 at `s = "αβγδε"` (five runes), `n = 3`. -/
theorem truncate_spec_witness :
    (0 ≤ (3:Int)) ∧
    (((truncate ['α','β','γ','δ','ε'] 3).length : Int) ≤ 3 ∧
     (((['α','β','γ','δ','ε'] : List Char).length : Int) ≤ 3 →
       truncate ['α','β','γ','δ','ε'] 3 = ['α','β','γ','δ','ε']) ∧
     (2 ≤ (3:Int) → (3:Int) < (['α','β','γ','δ','ε'] : List Char).length →
       ((truncate ['α','β','γ','δ','ε'] 3).length : Int) = 3 ∧
       (truncate ['α','β','γ','δ','ε'] 3).getLast? = some '…')) :=
  ⟨by decide, truncate_spec ['α','β','γ','δ','ε'] 3 (by decide)⟩

/-! ## The proportional bar (C9) -/

/-- The exact value `int(pct * float64(barMaxW))` takes in `renderRow` when
the parent size is positive: the FLOOR of `size·barMaxW / parentSize`. -/
theorem floatToInt_pct (size parentSize barMaxW : Int)
    (hp : 0 < parentSize) (hs : 0 ≤ size) (hw : 0 ≤ barMaxW) :
    floatToInt (((size : ℚ) / (parentSize : ℚ)) * (barMaxW : ℚ))
      = (size * barMaxW) / parentSize := by
  have hq : (0:ℚ) ≤ ((size : ℚ) / (parentSize : ℚ)) * (barMaxW : ℚ) := by
    apply mul_nonneg
    · apply div_nonneg <;> exact_mod_cast (by omega : (0:Int) ≤ _)
    · exact_mod_cast hw
  have hcast : ((parentSize.toNat : ℕ) : ℚ) = (parentSize : ℚ) := by
    exact_mod_cast Int.toNat_of_nonneg hp.le
  have hrw : ((size : ℚ) / (parentSize : ℚ)) * (barMaxW : ℚ)
      = ((size * barMaxW : Int) : ℚ) / ((parentSize.toNat : ℕ) : ℚ) := by
    rw [hcast]
    push_cast
    ring
  rw [floatToInt, if_pos hq, hrw, Rat.floor_intCast_div_natCast,
    Int.toNat_of_nonneg hp.le]

/-- **C9** (amended): for every rendered row with positive parent size,
non-negative node size and bar width at least 1, the proportional bar's
length equals the FLOOR (Go `int(...)` truncation) of
`size/parent_size × barMaxW` — not its rounding — clamped to at least 1 when
the node's size is greater than 0, equal to 0 when the node's size is 0, and
never exceeding the maximum bar width. -/
theorem renderRowBarLen_spec (size parentSize barMaxW : Int)
    (hp : 0 < parentSize) (hs : 0 ≤ size) (hw : 1 ≤ barMaxW) :
    renderRowBarLen size parentSize barMaxW
      = (if size = 0 then 0
         else min barMaxW (max 1 ((size * barMaxW) / parentSize))) ∧
    (size = 0 → renderRowBarLen size parentSize barMaxW = 0) ∧
    (0 < size → 1 ≤ renderRowBarLen size parentSize barMaxW) ∧
    renderRowBarLen size parentSize barMaxW ≤ barMaxW := by
  have hT : 0 ≤ (size * barMaxW) / parentSize :=
    Int.ediv_nonneg (by positivity) hp.le
  have hmain : renderRowBarLen size parentSize barMaxW
      = (if size = 0 then 0
         else min barMaxW (max 1 ((size * barMaxW) / parentSize))) := by
    simp only [renderRowBarLen]
    rw [if_pos hp, floatToInt_pct size parentSize barMaxW hp hs (by omega)]
    set T := (size * barMaxW) / parentSize with hTdef
    have hTz : size = 0 → T = 0 := by
      intro h
      rw [hTdef, h]
      simp
    by_cases hsz : size = 0
    · have h0 : T = 0 := hTz hsz
      split_ifs <;> omega
    · split_ifs <;> omega
  refine ⟨hmain, fun h0 => by rw [hmain, if_pos h0], fun hpos => ?_, ?_⟩
  · rw [hmain, if_neg (by omega)]
    omega
  · rw [hmain]
    split_ifs <;> omega

/-- Witness for C9 (amended) at `size = 2`, `parentSize = 3`,
`barMaxW = 10`. -/
theorem renderRowBarLen_spec_witness :
    ((0:Int) < 3 ∧ (0:Int) ≤ 2 ∧ (1:Int) ≤ 10) ∧
    (renderRowBarLen 2 3 10
       = (if (2:Int) = 0 then 0 else min 10 (max 1 ((2 * 10) / 3))) ∧
     ((2:Int) = 0 → renderRowBarLen 2 3 10 = 0) ∧
     ((0:Int) < 2 → 1 ≤ renderRowBarLen 2 3 10) ∧
     renderRowBarLen 2 3 10 ≤ 10) :=
  ⟨by decide, renderRowBarLen_spec 2 3 10 (by decide) (by decide) (by decide)⟩

/-- **C9** counterexample: at `size = 2`, `parentSize = 3`, `barMaxW = 10`
the code yields `int(2/3 × 10) = ⌊20/3⌋ = 6` while the claimed
`round(size/parent_size × barMaxW)` is `round(20/3) = 7`: the bar length is
the truncation, not the rounding, of the proportion. -/
theorem renderRowBarLen_counterexample :
    renderRowBarLen 2 3 10 = 6 ∧ round (((2:ℚ) / 3) * 10) = 7 := by
  constructor
  · have h1 : floatToInt ((((2:Int) : ℚ) / ((3:Int) : ℚ)) * ((10:Int) : ℚ))
        = (2 * 10) / 3 := floatToInt_pct 2 3 10 (by decide) (by decide) (by decide)
    simp only [renderRowBarLen]
    rw [if_pos (show (0:Int) < 3 by decide), h1]
    decide
  · rw [round_eq,
      show ((2:ℚ)/3) * 10 + 1/2 = ((43:Int) : ℚ) / ((6:ℕ) : ℚ) by norm_num,
      Rat.floor_intCast_div_natCast]
    decide

/-! ## More accessor lemmas -/

@[simp] theorem Node.size_setSize (x : Node) (b : Int) : (x.setSize b).size = b := by
  cases x; rfl
@[simp] theorem Node.children_setSize (x : Node) (b : Int) :
    (x.setSize b).children = x.children := by cases x; rfl
@[simp] theorem Node.name_setSize (x : Node) (b : Int) :
    (x.setSize b).name = x.name := by cases x; rfl
@[simp] theorem Node.err_setSize (x : Node) (b : Int) :
    (x.setSize b).err = x.err := by cases x; rfl
@[simp] theorem Node.isDir_setSize (x : Node) (b : Int) :
    (x.setSize b).isDir = x.isDir := by cases x; rfl
@[simp] theorem Node.err_setErr (x : Node) (b : Bool) : (x.setErr b).err = b := by
  cases x; rfl
@[simp] theorem Node.children_setErr (x : Node) (b : Bool) :
    (x.setErr b).children = x.children := by cases x; rfl
@[simp] theorem Node.size_setErr (x : Node) (b : Bool) :
    (x.setErr b).size = x.size := by cases x; rfl
@[simp] theorem Node.isDir_setErr (x : Node) (b : Bool) :
    (x.setErr b).isDir = x.isDir := by cases x; rfl
@[simp] theorem Node.children_markSorted (x : Node) (g : Nat) (mo : Int) :
    (x.markSorted g mo).children = x.children := by cases x; rfl
@[simp] theorem Node.size_markSorted (x : Node) (g : Nat) (mo : Int) :
    (x.markSorted g mo).size = x.size := by cases x; rfl
@[simp] theorem Node.sortGen_markSorted (x : Node) (g : Nat) (mo : Int) :
    (x.markSorted g mo).sortGen = g := by cases x; rfl
@[simp] theorem Node.sortedMode_markSorted (x : Node) (g : Nat) (mo : Int) :
    (x.markSorted g mo).sortedMode = mo := by cases x; rfl

@[simp] theorem Node.isSorted_markSorted (x : Node) (g : Nat) (mo : Int) :
    (x.markSorted g mo).isSorted g mo = true := by
  simp [Node.isSorted]

/-! ## Insertion sort: permutation and sortedness -/

theorem insertLe_perm (le : Node → Node → Bool) (x : Node) (l : List Node) :
    List.Perm (insertLe le x l) (x :: l) := by
  induction l with
  | nil => rfl
  | cons y ys ih =>
    unfold insertLe
    split_ifs
    · rfl
    · exact (ih.cons y).trans (List.Perm.swap x y ys)

theorem isort_perm (le : Node → Node → Bool) (l : List Node) :
    List.Perm (isort le l) l := by
  induction l with
  | nil => rfl
  | cons x xs ih =>
    unfold isort
    exact (insertLe_perm le x (isort le xs)).trans (ih.cons x)

theorem insertLe_sorted (le : Node → Node → Bool)
    (htot : ∀ a b, le a b = true ∨ le b a = true)
    (htrans : ∀ a b c, le a b = true → le b c = true → le a c = true)
    (x : Node) (l : List Node) (hl : SortedB le l) :
    SortedB le (insertLe le x l) := by
  induction l with
  | nil => simp [insertLe, SortedB]
  | cons y ys ih =>
    rcases List.pairwise_cons.mp hl with ⟨hy, hys⟩
    unfold insertLe
    split_ifs with hxy
    · refine List.pairwise_cons.mpr ⟨?_, hl⟩
      intro z hz
      rcases List.mem_cons.mp hz with rfl | hz2
      · exact hxy
      · exact htrans x y z hxy (hy z hz2)
    · refine List.pairwise_cons.mpr ⟨?_, ih hys⟩
      intro z hz
      have hz2 : z ∈ x :: ys := (insertLe_perm le x ys).mem_iff.mp hz
      rcases List.mem_cons.mp hz2 with rfl | hz3
      · exact (htot z y).resolve_left hxy
      · exact hy z hz3

theorem isort_sorted (le : Node → Node → Bool)
    (htot : ∀ a b, le a b = true ∨ le b a = true)
    (htrans : ∀ a b c, le a b = true → le b c = true → le a c = true)
    (l : List Node) : SortedB le (isort le l) := by
  induction l with
  | nil => simp [isort, SortedB]
  | cons x xs ih => exact insertLe_sorted le htot htrans x (isort le xs) ih

theorem bySizeDesc_total (a b : Node) :
    bySizeDesc a b = true ∨ bySizeDesc b a = true := by
  simp only [bySizeDesc, decide_eq_true_eq]
  exact le_total b.size a.size

theorem bySizeDesc_trans (a b c : Node) (h1 : bySizeDesc a b = true)
    (h2 : bySizeDesc b c = true) : bySizeDesc a c = true := by
  simp only [bySizeDesc, decide_eq_true_eq] at *
  exact le_trans h2 h1

theorem byNameAsc_total (a b : Node) :
    byNameAsc a b = true ∨ byNameAsc b a = true := by
  simp only [byNameAsc, decide_eq_true_eq]
  exact le_total a.name b.name

theorem byNameAsc_trans (a b c : Node) (h1 : byNameAsc a b = true)
    (h2 : byNameAsc b c = true) : byNameAsc a c = true := by
  simp only [byNameAsc, decide_eq_true_eq] at *
  exact le_trans h1 h2

theorem modeLe_total (md : SortMode) (a b : Node) :
    modeLe md a b = true ∨ modeLe md b a = true := by
  cases md
  · exact bySizeDesc_total a b
  · exact byNameAsc_total a b

theorem modeLe_trans (md : SortMode) (a b c : Node)
    (h1 : modeLe md a b = true) (h2 : modeLe md b c = true) :
    modeLe md a c = true := by
  cases md
  · exact bySizeDesc_trans a b c h1 h2
  · exact byNameAsc_trans a b c h1 h2

theorem sortNode_children (x : Node) (md : SortMode) :
    (sortNode x md).children = isort (modeLe md) x.children := by
  cases md <;> simp [sortNode, Node.sortBySize, Node.sortByName, modeLe]

theorem sortNode_sortGen (x : Node) (md : SortMode) :
    (sortNode x md).sortGen = x.sortGen := by
  cases md <;> simp [sortNode, Node.sortBySize, Node.sortByName]

/-! ## The lazy-sorting contract of visibleChildren -/

theorem visibleChildren_none (m : Model)
    (h : nodeAt m.root (curPath m) = none) : visibleChildren m = (m, []) := by
  simp [visibleChildren, h]

theorem visibleChildren_fast (m : Model) (d : Node)
    (hd : nodeAt m.root (curPath m) = some d)
    (hs : d.isSorted m.sortGen (sortModeToInt8 m.sort) = true) :
    visibleChildren m = (m, d.children) := by
  simp [visibleChildren, hd, hs]

theorem visibleChildren_slow (m : Model) (d : Node)
    (hd : nodeAt m.root (curPath m) = some d)
    (hs : d.isSorted m.sortGen (sortModeToInt8 m.sort) = false) :
    visibleChildren m =
      ({ m with root := modifyAt m.root (curPath m) (visSortF m) },
       (visSortF m d).children) := by
  simp [visibleChildren, hd, hs]

@[simp] theorem curPath_set_root (m : Model) (r : Node) :
    curPath { m with root := r } = curPath m := rfl

@[simp] theorem curPath_set_cursor (m : Model) (k : Int) :
    curPath { m with cursor := k } = curPath m := rfl

theorem isSorted_visSortF (m : Model) (x : Node) :
    (visSortF m x).isSorted m.sortGen (sortModeToInt8 m.sort) = true := by
  simp [visSortF]

/-- Calling `visibleChildren` twice without an intervening sort-mode change
returns the same model and the same (identically ordered) children: the
second call observes `IsSorted` and takes the fast path. -/
theorem visibleChildren_idem (m : Model) :
    visibleChildren (visibleChildren m).1 = visibleChildren m := by
  cases hd : nodeAt m.root (curPath m) with
  | none =>
    rw [visibleChildren_none m hd]
    exact visibleChildren_none m hd
  | some d =>
    cases hs : d.isSorted m.sortGen (sortModeToInt8 m.sort) with
    | true =>
      rw [visibleChildren_fast m d hd hs]
      exact visibleChildren_fast m d hd hs
    | false =>
      rw [visibleChildren_slow m d hd hs]
      have hd1 : nodeAt (modifyAt m.root (curPath m) (visSortF m)) (curPath m)
          = some (visSortF m d) := by
        rw [nodeAt_modifyAt_self, hd]
        rfl
      exact visibleChildren_fast _ (visSortF m d) hd1 (isSorted_visSortF m d)

/-- `clampCursor` only moves the cursor when the current directory is
already sorted for the active generation and mode (as it is on every path
the confirm-delete handler takes): the tree, stack and bookkeeping are
untouched. -/
theorem clampCursor_frame (m : Model) (d : Node)
    (hd : nodeAt m.root (curPath m) = some d)
    (hs : d.isSorted m.sortGen (sortModeToInt8 m.sort) = true) :
    ∃ k, clampCursor m = { m with cursor := k } := by
  unfold clampCursor
  rw [visibleChildren_fast m d hd hs]
  dsimp only
  split_ifs <;> exact ⟨_, rfl⟩

/-! ## C4 — the sort toggle and the lazy re-sort -/

/-- **C4**: toggling the sort mode (key `s`) only flips the mode, increments
the model's sort generation counter and resets the cursor — the tree (root
and stack) is untouched, no part of it is walked; `visibleChildren` called
twice without an intervening sort-mode change returns the same model and the
same sequence in the same order (the second call takes the `is_sorted` fast
path and does not re-sort); and after one `s` press the first
`visibleChildren` call returns the current directory's children re-sorted
into the opposite ordering — the toggled mode's order (descending size and
ascending name swap). -/
theorem handleSortToggle_spec (m : Model) (d : Node)
    (hd : nodeAt m.root (curPath m) = some d)
    (hgen : d.sortGen ≤ m.sortGen) :
    (handleSortToggle m = { m with sort := toggledMode m.sort, sortGen := m.sortGen + 1, cursor := 0 }) ∧
    visibleChildren (visibleChildren m).1 = visibleChildren m ∧
    List.Perm (visibleChildren (handleSortToggle m)).2 d.children ∧
    SortedB (modeLe (toggledMode m.sort))
      (visibleChildren (handleSortToggle m)).2 := by
  have htog : handleSortToggle m = { m with sort := toggledMode m.sort, sortGen := m.sortGen + 1, cursor := 0 } := by
    cases hs : m.sort <;> simp [handleSortToggle, toggledMode, hs]
  have hd2 : nodeAt (handleSortToggle m).root
      (curPath (handleSortToggle m)) = some d := by
    rw [htog]
    exact hd
  have hs2 : d.isSorted (handleSortToggle m).sortGen
      (sortModeToInt8 (handleSortToggle m).sort) = false := by
    rw [htog]
    show d.isSorted (m.sortGen + 1) (sortModeToInt8 (toggledMode m.sort)) = false
    have hne : (d.sortGen == m.sortGen + 1) = false := by
      simp only [beq_eq_false_iff_ne, ne_eq]
      omega
    simp [Node.isSorted, hne]
  have hv := visibleChildren_slow (handleSortToggle m) d hd2 hs2
  have hch : (visibleChildren (handleSortToggle m)).2
      = isort (modeLe (toggledMode m.sort)) d.children := by
    rw [hv]
    show (visSortF (handleSortToggle m) d).children = _
    rw [visSortF]
    simp only [Node.children_markSorted, sortNode_children]
    rw [htog]
  refine ⟨htog, visibleChildren_idem m, ?_, ?_⟩
  · rw [hch]
    exact isort_perm _ _
  · rw [hch]
    exact isort_sorted _ (modeLe_total _) (modeLe_trans _) _

/-- Witness for C4 on the concrete Browsing model `fixModel` (current
directory `fixRoot`, children `foo` 100 B and `bar` 50 B). -/
theorem handleSortToggle_spec_witness :
    (nodeAt fixModel.root (curPath fixModel) = some fixRoot ∧
     fixRoot.sortGen ≤ fixModel.sortGen) ∧
    ((handleSortToggle fixModel = { fixModel with sort := toggledMode fixModel.sort, sortGen := fixModel.sortGen + 1, cursor := 0 }) ∧
     visibleChildren (visibleChildren fixModel).1 = visibleChildren fixModel ∧
     List.Perm (visibleChildren (handleSortToggle fixModel)).2
       fixRoot.children ∧
     SortedB (modeLe (toggledMode fixModel.sort))
       (visibleChildren (handleSortToggle fixModel)).2) :=
  ⟨⟨rfl, by decide⟩, handleSortToggle_spec fixModel fixRoot rfl (by decide)⟩

/-! ## C2 — trash failure mutates nothing -/

/-- **C2**: for every model in the ConfirmDelete state, if the trash hook
returns an error on confirmation (keys `d`/`y`/`enter`), no node's children
list and no node's size is modified: the root is literally the same tree,
so every node reachable by any index path — its children list and its size
included — is exactly the same after the key event as before it, and the
stack, cursor, sort mode and generation are unchanged too; only the model's
state (back to Browsing) and the captured path (cleared) change.  The final
conjunct packages all of this as one record equality. -/
theorem confirmDelete_trashError_spec (m : Model) (key : String)
    (hstate : m.state = AppState.stateConfirmDelete)
    (hkey : key = "d" ∨ key = "y" ∨ key = "enter") :
    (handleKeyConfirmDelete m key true).root = m.root ∧
    (∀ q, nodeAt (handleKeyConfirmDelete m key true).root q = nodeAt m.root q) ∧
    (∀ q n, nodeAt m.root q = some n →
       nodeAt (handleKeyConfirmDelete m key true).root q = some n) ∧
    (handleKeyConfirmDelete m key true).stack = m.stack ∧
    (handleKeyConfirmDelete m key true).cursor = m.cursor ∧
    (handleKeyConfirmDelete m key true).sort = m.sort ∧
    (handleKeyConfirmDelete m key true).sortGen = m.sortGen ∧
    (handleKeyConfirmDelete m key true).state = AppState.stateBrowsing ∧
    (handleKeyConfirmDelete m key true).confirmPath = "" ∧
    handleKeyConfirmDelete m key true
      = { m with state := AppState.stateBrowsing, confirmPath := "" } := by
  have h : handleKeyConfirmDelete m key true
      = { m with state := AppState.stateBrowsing, confirmPath := "" } := by
    rcases hkey with rfl | rfl | rfl <;> rfl
  refine ⟨by rw [h], ?_, ?_, by rw [h], by rw [h], by rw [h], by rw [h],
    by rw [h], by rw [h], h⟩
  · intro q
    rw [h]
  · intro q n hq
    rw [h]
    exact hq

/-- Witness for C2 on the concrete ConfirmDelete model `fixConfirm`,
key `y`. -/
theorem confirmDelete_trashError_spec_witness :
    (fixConfirm.state = AppState.stateConfirmDelete ∧
     ("y" = "d" ∨ "y" = "y" ∨ "y" = "enter")) ∧
    ((handleKeyConfirmDelete fixConfirm "y" true).root = fixConfirm.root ∧
     (∀ q, nodeAt (handleKeyConfirmDelete fixConfirm "y" true).root q
        = nodeAt fixConfirm.root q) ∧
     (∀ q n, nodeAt fixConfirm.root q = some n →
        nodeAt (handleKeyConfirmDelete fixConfirm "y" true).root q = some n) ∧
     (handleKeyConfirmDelete fixConfirm "y" true).stack = fixConfirm.stack ∧
     (handleKeyConfirmDelete fixConfirm "y" true).cursor = fixConfirm.cursor ∧
     (handleKeyConfirmDelete fixConfirm "y" true).sort = fixConfirm.sort ∧
     (handleKeyConfirmDelete fixConfirm "y" true).sortGen = fixConfirm.sortGen ∧
     (handleKeyConfirmDelete fixConfirm "y" true).state
        = AppState.stateBrowsing ∧
     (handleKeyConfirmDelete fixConfirm "y" true).confirmPath = "" ∧
     handleKeyConfirmDelete fixConfirm "y" true
       = { fixConfirm with state := AppState.stateBrowsing, confirmPath := "" }) :=
  ⟨⟨rfl, Or.inr (Or.inl rfl)⟩,
    confirmDelete_trashError_spec fixConfirm "y" rfl (Or.inr (Or.inl rfl))⟩

/-! ## Size bookkeeping along the stack -/

/-- An `AddSize` through one stack pointer leaves the size seen through any
other, distinct stack pointer unchanged (stack pointers are pairwise
prefix-comparable, both being prefixes of the deepest one). -/
theorem sizeAt_modifyAt_addSize_ne (r : Node) (q t cp : List Nat) (δ : Int)
    (hq : q <+: cp) (ht : t <+: cp) (hne : q ≠ t) :
    sizeAt (modifyAt r q (Node.addSize δ)) t = sizeAt r t := by
  rcases List.prefix_or_prefix_of_prefix hq ht with h | h
  · obtain ⟨rest, rfl⟩ := h
    cases rest with
    | nil => exact absurd (List.append_nil q).symm hne
    | cons j rest2 =>
      unfold sizeAt
      rw [nodeAt_modifyAt_above _ _ _ _ _ (fun x => Node.children_addSize x δ)]
  · obtain ⟨rest, rfl⟩ := h
    cases rest with
    | nil => exact absurd (List.append_nil t) hne
    | cons j rest2 =>
      unfold sizeAt
      rw [nodeAt_modifyAt_below]
      cases nodeAt r t <;> simp

/-- An `AddSize` through a stack pointer adds to exactly the size it points
at. -/
theorem sizeAt_modifyAt_addSize_self (r : Node) (q : List Nat) (δ : Int) :
    sizeAt (modifyAt r q (Node.addSize δ)) q = (sizeAt r q).map (· + δ) := by
  unfold sizeAt
  rw [nodeAt_modifyAt_self]
  cases nodeAt r q <;> simp

/-- A size-preserving mutation through the deepest pointer leaves the size
seen through every pointer above it (prefixes, the pointer itself included)
unchanged. -/
theorem sizeAt_modifyAt_prefix (r : Node) (q cp : List Nat) (f : Node → Node)
    (hsz : ∀ x, (f x).size = x.size) (h : q <+: cp) :
    sizeAt (modifyAt r cp f) q = sizeAt r q := by
  obtain ⟨rest, rfl⟩ := h
  cases rest with
  | nil =>
    rw [List.append_nil]
    unfold sizeAt
    rw [nodeAt_modifyAt_self]
    cases nodeAt r q <;> simp [hsz]
  | cons j rest2 =>
    unfold sizeAt
    rw [nodeAt_modifyAt_below]
    cases nodeAt r q <;> simp

/-- What the deepest pointer sees after an `AddSize` through a pointer above
it: unchanged unless the two pointers coincide, in which case only the size
field moved. -/
theorem nodeAt_modifyAt_addSize_deep (r : Node) (q cp : List Nat) (δ : Int)
    (hq : q <+: cp) :
    nodeAt (modifyAt r q (Node.addSize δ)) cp
      = if q = cp then (nodeAt r cp).map (Node.addSize δ) else nodeAt r cp := by
  obtain ⟨rest, rfl⟩ := hq
  cases rest with
  | nil =>
    rw [List.append_nil, if_pos rfl, nodeAt_modifyAt_self]
  | cons j rest2 =>
    rw [if_neg (by intro h; have := congrArg List.length h; simp at this),
      nodeAt_modifyAt_above _ _ _ _ _ (fun x => Node.children_addSize x δ)]

/-- The subtraction fold of the confirm-delete handler, summarised: every
stack pointer's size moves by `δ`, every other prefix of the deepest pointer
is untouched, and the node under the deepest pointer is unchanged except
for one `AddSize` when the deepest pointer itself is on the stack. -/
theorem foldl_modifyAt_addSize (stack : List (List Nat)) (cp : List Nat)
    (δ : Int) :
    ∀ (r : Node), (∀ q ∈ stack, q <+: cp) → stack.Nodup →
    ((∀ q ∈ stack,
        sizeAt (stack.foldl (fun a p => modifyAt a p (Node.addSize δ)) r) q
          = (sizeAt r q).map (· + δ)) ∧
     (∀ t, t <+: cp → t ∉ stack →
        sizeAt (stack.foldl (fun a p => modifyAt a p (Node.addSize δ)) r) t
          = sizeAt r t) ∧
     nodeAt (stack.foldl (fun a p => modifyAt a p (Node.addSize δ)) r) cp
       = (if cp ∈ stack then (nodeAt r cp).map (Node.addSize δ)
          else nodeAt r cp)) := by
  induction stack with
  | nil =>
    intro r _ _
    refine ⟨by simp, fun t _ _ => rfl, ?_⟩
    rw [if_neg (List.not_mem_nil cp)]
    rfl
  | cons q qs ih =>
    intro r hpre hnd
    have hq : q <+: cp := hpre q (List.mem_cons_self q qs)
    have hqs : ∀ p ∈ qs, p <+: cp := fun p hp => hpre p (List.mem_cons_of_mem q hp)
    have hqnotin : q ∉ qs := (List.nodup_cons.mp hnd).1
    have hndqs : qs.Nodup := (List.nodup_cons.mp hnd).2
    obtain ⟨ih1, ih2, ih3⟩ := ih (modifyAt r q (Node.addSize δ)) hqs hndqs
    rw [List.foldl_cons]
    refine ⟨?_, ?_, ?_⟩
    · intro p hp
      rcases List.mem_cons.mp hp with rfl | hp2
      · rw [ih2 p hq hqnotin, sizeAt_modifyAt_addSize_self]
      · rw [ih1 p hp2,
          sizeAt_modifyAt_addSize_ne r q p cp δ hq (hqs p hp2)
            (fun h => hqnotin (h ▸ hp2))]
    · intro t ht htn
      have htq : q ≠ t := fun h => htn (h ▸ List.mem_cons_self q qs)
      have htqs : t ∉ qs := fun h => htn (List.mem_cons_of_mem q h)
      rw [ih2 t ht htqs, sizeAt_modifyAt_addSize_ne r q t cp δ hq ht htq]
    · by_cases hcq : cp ∈ q :: qs
      · rw [if_pos hcq]
        rcases List.mem_cons.mp hcq with rfl | hc2
        · have hcpqs : cp ∉ qs := hqnotin
          rw [ih3, if_neg hcpqs, nodeAt_modifyAt_addSize_deep r cp cp δ hq,
            if_pos rfl]
        · have hqcp : q ≠ cp := fun h => hqnotin (h ▸ hc2)
          rw [ih3, if_pos hc2, nodeAt_modifyAt_addSize_deep r q cp δ hq,
            if_neg hqcp]
      · rw [if_neg hcq]
        have h1 : cp ∉ qs := fun h => hcq (List.mem_cons_of_mem q h)
        have h2 : q ≠ cp := fun h => hcq (h ▸ List.mem_cons_self q qs)
        rw [ih3, if_neg h1, nodeAt_modifyAt_addSize_deep r q cp δ hq, if_neg h2]

/-! ## C10 — confirmed delete with no matching child -/

theorem foldl_modifyAt_addSize_zero (stack : List (List Nat)) (r : Node) :
    stack.foldl (fun a q => modifyAt a q (Node.addSize 0)) r = r := by
  induction stack generalizing r with
  | nil => rfl
  | cons q qs ih =>
    rw [List.foldl_cons, modifyAt_id _ _ _ (fun x => Node.addSize_zero x)]
    exact ih r

theorem Model.eta_root (m : Model) : ({ m with root := m.root } : Model) = m := rfl

/-- **C10**: if the delete is confirmed in the ConfirmDelete state and the
trash hook succeeds but the captured path matches no child of the current
directory, the operation is a no-op on the tree — no child is removed and
every node's size is unchanged (a zero delta is subtracted from the
ancestors and root, the tree comes back identical) — while the model still
transitions to Browsing with the captured path cleared (and the stack is
untouched). -/
theorem confirmDelete_noMatch_spec (m : Model) (key : String) (parent : Node)
    (hstate : m.state = AppState.stateConfirmDelete)
    (hkey : key = "d" ∨ key = "y" ∨ key = "enter")
    (hparent : nodeAt m.root (curPath m) = some parent)
    (hfind : parent.children.findIdx? (fun c => c.path == m.confirmPath) = none)
    (hsorted : parent.isSorted m.sortGen (sortModeToInt8 m.sort) = true) :
    (handleKeyConfirmDelete m key false).root = m.root ∧
    (handleKeyConfirmDelete m key false).stack = m.stack ∧
    (handleKeyConfirmDelete m key false).state = AppState.stateBrowsing ∧
    (handleKeyConfirmDelete m key false).confirmPath = "" := by
  obtain ⟨k, hk⟩ := clampCursor_frame m parent hparent hsorted
  have hred : handleKeyConfirmDelete m key false
      = { clampCursor m with state := AppState.stateBrowsing, confirmPath := "" } := by
    rcases hkey with rfl | rfl | rfl <;>
      simp only [handleKeyConfirmDelete, hparent, hfind, Bool.false_eq_true,
        if_false, foldl_modifyAt_addSize_zero, neg_zero, Node.addSize_zero,
        Model.eta_root]
  rw [hred, hk]
  exact ⟨rfl, rfl, rfl, rfl⟩

/-- Witness for C10 on `fixConfirmGone` (captured path `root/zap` matches
neither `foo` nor `bar`), key `enter`. -/
theorem confirmDelete_noMatch_spec_witness :
    (fixConfirmGone.state = AppState.stateConfirmDelete ∧
     ("enter" = "d" ∨ "enter" = "y" ∨ "enter" = "enter") ∧
     nodeAt fixConfirmGone.root (curPath fixConfirmGone) = some fixRoot ∧
     fixRoot.children.findIdx?
       (fun c => c.path == fixConfirmGone.confirmPath) = none ∧
     fixRoot.isSorted fixConfirmGone.sortGen
       (sortModeToInt8 fixConfirmGone.sort) = true) ∧
    ((handleKeyConfirmDelete fixConfirmGone "enter" false).root
        = fixConfirmGone.root ∧
     (handleKeyConfirmDelete fixConfirmGone "enter" false).stack
        = fixConfirmGone.stack ∧
     (handleKeyConfirmDelete fixConfirmGone "enter" false).state
        = AppState.stateBrowsing ∧
     (handleKeyConfirmDelete fixConfirmGone "enter" false).confirmPath = "") :=
  ⟨⟨rfl, Or.inr (Or.inr rfl), rfl, by decide, by decide⟩,
    confirmDelete_noMatch_spec fixConfirmGone "enter" fixRoot rfl
      (Or.inr (Or.inr rfl)) rfl (by decide) (by decide)⟩

/-! ## C1 — confirmed delete with a successful trash -/

theorem nodeAt_addSize_cons (x : Node) (δ : Int) (j : Nat) (rest : List Nat) :
    nodeAt (x.addSize δ) (j :: rest) = nodeAt x (j :: rest) :=
  nodeAt_congr_children x (x.addSize δ) (Node.children_addSize x δ) j rest

/-- On the success path the confirm-delete handler computes exactly: remove
the matched child, run the subtraction fold (`removeAndDeduct`), clamp the
cursor, go back to Browsing with the captured path cleared. -/
theorem handleKeyConfirmDelete_success_eq (m : Model) (key : String)
    (parent c : Node) (i : Nat)
    (hkey : key = "d" ∨ key = "y" ∨ key = "enter")
    (hparent : nodeAt m.root (curPath m) = some parent)
    (hfind : parent.children.findIdx? (fun x => x.path == m.confirmPath) = some i)
    (hget : parent.children[i]? = some c) :
    handleKeyConfirmDelete m key false
      = { clampCursor { m with root := removeAndDeduct m i c.size } with state := AppState.stateBrowsing, confirmPath := "" } := by
  rcases hkey with rfl | rfl | rfl <;>
    simp only [handleKeyConfirmDelete, hparent, hfind, hget, Option.map_some',
      Option.getD_some, Bool.false_eq_true, if_false, removeAndDeduct]

/-- **C1**: for every model in the ConfirmDelete state whose captured path
identifies a (unique) child of the current directory with size `S`,
confirming the delete (key `d`, `y`, or `enter`) with a trash hook that
succeeds removes that entry from the current directory's children, decreases
the root node's size by exactly `S`, and decreases the size of every
ancestor on the navigation stack by exactly `S`, after which the model is in
Browsing (captured path cleared, stack unchanged).  The hypotheses on the
stack (`StackOK`) and on the current directory's sort stamp are the
well-formedness invariants every reachable Browsing/ConfirmDelete state
satisfies. -/
theorem confirmDelete_success_spec (m : Model) (key : String)
    (parent c : Node) (i : Nat) (S : Int)
    (hstate : m.state = AppState.stateConfirmDelete)
    (hkey : key = "d" ∨ key = "y" ∨ key = "enter")
    (hstack : StackOK m.root m.stack)
    (hparent : nodeAt m.root (curPath m) = some parent)
    (hfind : parent.children.findIdx? (fun x => x.path == m.confirmPath) = some i)
    (hget : parent.children[i]? = some c)
    (hS : c.size = S)
    (huniq : ∀ j x, parent.children[j]? = some x → x.path = m.confirmPath → j = i)
    (hsorted : parent.isSorted m.sortGen (sortModeToInt8 m.sort) = true) :
    (handleKeyConfirmDelete m key false).state = AppState.stateBrowsing ∧
    (handleKeyConfirmDelete m key false).confirmPath = "" ∧
    (handleKeyConfirmDelete m key false).stack = m.stack ∧
    (handleKeyConfirmDelete m key false).root.size = m.root.size - S ∧
    (∀ q ∈ m.stack, ∃ x y, nodeAt m.root q = some x ∧
      nodeAt (handleKeyConfirmDelete m key false).root q = some y ∧
      y.size = x.size - S) ∧
    (∃ parent2,
      nodeAt (handleKeyConfirmDelete m key false).root (curPath m) = some parent2 ∧
      parent2.children = parent.children.eraseIdx i ∧
      ∀ x ∈ parent2.children, x.path ≠ m.confirmPath) := by
  subst hS
  obtain ⟨hnd, hmem⟩ := hstack
  have hnodup : m.stack.Nodup := hnd
  have hpre : ∀ q ∈ m.stack, q <+: curPath m := fun q hq => (hmem q hq).2.1
  have hnenil : ∀ q ∈ m.stack, q ≠ [] := fun q hq => (hmem q hq).1
  -- the three stages of the tree update
  have heFsz : ∀ x : Node,
      (x.setChildren (x.children.eraseIdx i)).size = x.size := fun x => by simp
  set root1 := modifyAt m.root (curPath m)
    (fun d => d.setChildren (d.children.eraseIdx i)) with hroot1
  set root2 := m.stack.foldl
    (fun a q => modifyAt a q (Node.addSize (-c.size))) root1 with hroot2
  have hRD : removeAndDeduct m i c.size = root2.addSize (-c.size) := rfl
  -- stage 1: removal
  have hr1cp : nodeAt root1 (curPath m)
      = some (parent.setChildren (parent.children.eraseIdx i)) := by
    rw [hroot1, nodeAt_modifyAt_self, hparent]
    rfl
  have hr1pre : ∀ q, q <+: curPath m → sizeAt root1 q = sizeAt m.root q :=
    fun q hq => sizeAt_modifyAt_prefix m.root q (curPath m) _ heFsz hq
  -- stage 2: the subtraction fold
  obtain ⟨hf1, hf2, hf3⟩ :=
    foldl_modifyAt_addSize m.stack (curPath m) (-c.size) root1 hpre hnodup
  -- the current directory after the fold
  have hr2cp : ∃ p2, nodeAt root2 (curPath m) = some p2 ∧
      p2.children = parent.children.eraseIdx i ∧
      p2.sortGen = parent.sortGen ∧ p2.sortedMode = parent.sortedMode := by
    rw [hroot2]
    by_cases hc : curPath m ∈ m.stack
    · rw [hf3, if_pos hc, hr1cp]
      exact ⟨_, rfl, by simp, by simp, by simp⟩
    · rw [hf3, if_neg hc, hr1cp]
      exact ⟨_, rfl, by simp, by simp, by simp⟩
  obtain ⟨p2, hp2, hp2ch, hp2g, hp2m⟩ := hr2cp
  -- root size through the stages
  have hr2root : root2.size = m.root.size := by
    have h0 : ([] : List Nat) ∉ m.stack := fun h => (hnenil [] h) rfl
    have h1 := hf2 [] List.nil_prefix h0
    rw [hr1pre [] List.nil_prefix] at h1
    simpa [sizeAt] using h1
  -- the current directory after the final root AddSize
  have hr3cp : ∃ p3, nodeAt (root2.addSize (-c.size)) (curPath m) = some p3 ∧
      p3.children = parent.children.eraseIdx i ∧
      p3.sortGen = parent.sortGen ∧ p3.sortedMode = parent.sortedMode := by
    cases hcp : curPath m with
    | nil =>
      rw [hcp] at hp2
      have hpr : root2 = p2 := by simpa using hp2
      refine ⟨root2.addSize (-c.size), rfl, ?_, ?_, ?_⟩
      · rw [Node.children_addSize, hpr, hp2ch]
      · rw [Node.sortGen_addSize, hpr, hp2g]
      · rw [Node.sortedMode_addSize, hpr, hp2m]
    | cons j rest =>
      refine ⟨p2, ?_, hp2ch, hp2g, hp2m⟩
      rw [nodeAt_addSize_cons, ← hcp]
      exact hp2
  obtain ⟨p3, hp3, hp3ch, hp3g, hp3m⟩ := hr3cp
  -- reduce the handler
  have hred := handleKeyConfirmDelete_success_eq m key parent c i hkey hparent
    hfind hget
  -- clamp the cursor on the updated model
  have hp3sorted : p3.isSorted m.sortGen (sortModeToInt8 m.sort) = true := by
    rw [Node.isSorted, hp3g, hp3m]
    exact hsorted
  obtain ⟨k, hk⟩ := clampCursor_frame
    { m with root := removeAndDeduct m i c.size } p3 (by rw [hRD]; exact hp3)
    hp3sorted
  rw [hred, hk]
  refine ⟨rfl, rfl, rfl, ?_, ?_, ?_⟩
  · -- root size decreased by exactly S
    show (removeAndDeduct m i c.size).size = m.root.size - c.size
    rw [hRD]
    simp [hr2root, sub_eq_add_neg]
  · -- every ancestor on the stack decreased by exactly S
    intro q hq
    obtain ⟨x, hx⟩ := Option.isSome_iff_exists.mp (hmem q hq).2.2
    have hq1 : sizeAt root1 q = some x.size := by
      rw [hr1pre q (hpre q hq), sizeAt, hx]
      rfl
    have hq2 : sizeAt root2 q = some (x.size + (-c.size)) := by
      rw [hroot2, hf1 q hq, hq1]
      rfl
    have hq3 : sizeAt (removeAndDeduct m i c.size) q = some (x.size + (-c.size)) := by
      rw [hRD]
      cases hqq : q with
      | nil => exact absurd hqq (hnenil q hq)
      | cons j rest =>
        rw [sizeAt, nodeAt_addSize_cons, ← hqq, ← sizeAt, hq2]
    obtain ⟨y, hy1, hy2⟩ : ∃ y,
        nodeAt (removeAndDeduct m i c.size) q = some y ∧
          y.size = x.size + (-c.size) := by
      rw [sizeAt] at hq3
      cases hny : nodeAt (removeAndDeduct m i c.size) q with
      | none => rw [hny] at hq3; simp at hq3
      | some y =>
        rw [hny] at hq3
        exact ⟨y, rfl, by simpa using hq3⟩
    exact ⟨x, y, hx, hy1, by rw [hy2]; ring⟩
  · -- the entry is gone from the current directory's children
    refine ⟨p3, by rw [hRD]; exact hp3, hp3ch, ?_⟩
    intro x hx hpath
    rw [hp3ch] at hx
    obtain ⟨j, hj⟩ := List.mem_iff_getElem?.mp hx
    rw [List.getElem?_eraseIdx] at hj
    by_cases hji : j < i
    · rw [if_pos hji] at hj
      exact absurd (huniq j x hj hpath) (by omega)
    · rw [if_neg hji] at hj
      have := huniq (j + 1) x hj hpath
      omega

/-- Witness for C1 on `fix2Confirm`: browsing inside `sub` (stack holds the
pointer to it), deleting `root/sub/f` (100 B) with key `d`; both the root
(150 → 50) and the ancestor `sub` on the stack (100 → 0) drop by 100. -/
theorem confirmDelete_success_spec_witness :
    (fix2Confirm.state = AppState.stateConfirmDelete ∧
     ("d" = "d" ∨ "d" = "y" ∨ "d" = "enter") ∧
     StackOK fix2Confirm.root fix2Confirm.stack ∧
     nodeAt fix2Confirm.root (curPath fix2Confirm) = some fix2Sub ∧
     fix2Sub.children.findIdx?
       (fun x => x.path == fix2Confirm.confirmPath) = some 0 ∧
     fix2Sub.children[0]? = some fix2File ∧
     fix2File.size = 100 ∧
     (∀ j x, fix2Sub.children[j]? = some x →
        x.path = fix2Confirm.confirmPath → j = 0) ∧
     fix2Sub.isSorted fix2Confirm.sortGen
       (sortModeToInt8 fix2Confirm.sort) = true) ∧
    ((handleKeyConfirmDelete fix2Confirm "d" false).state
        = AppState.stateBrowsing ∧
     (handleKeyConfirmDelete fix2Confirm "d" false).confirmPath = "" ∧
     (handleKeyConfirmDelete fix2Confirm "d" false).stack = fix2Confirm.stack ∧
     (handleKeyConfirmDelete fix2Confirm "d" false).root.size
        = fix2Confirm.root.size - 100 ∧
     (∀ q ∈ fix2Confirm.stack, ∃ x y, nodeAt fix2Confirm.root q = some x ∧
        nodeAt (handleKeyConfirmDelete fix2Confirm "d" false).root q = some y ∧
        y.size = x.size - 100) ∧
     (∃ parent2, nodeAt (handleKeyConfirmDelete fix2Confirm "d" false).root
          (curPath fix2Confirm) = some parent2 ∧
        parent2.children = fix2Sub.children.eraseIdx 0 ∧
        ∀ x ∈ parent2.children, x.path ≠ fix2Confirm.confirmPath)) := by
  have hstack : StackOK fix2Confirm.root fix2Confirm.stack := by
    refine ⟨by simp [fix2Confirm], ?_⟩
    intro q hq
    have hq0 : q = [0] := by simpa [fix2Confirm] using hq
    subst hq0
    exact ⟨by simp, List.prefix_refl _, rfl⟩
  have huniq : ∀ j x, fix2Sub.children[j]? = some x →
      x.path = fix2Confirm.confirmPath → j = 0 := by
    intro j x hj _
    match j with
    | 0 => rfl
    | n + 1 => simp [fix2Sub] at hj
  exact ⟨⟨rfl, Or.inl rfl, hstack, rfl, by decide, rfl, rfl, huniq, by decide⟩,
    confirmDelete_success_spec fix2Confirm "d" fix2Sub fix2File 0 100 rfl
      (Or.inl rfl) hstack rfl (by decide) rfl rfl huniq (by decide)⟩

/-! ## The scanner invariant -/

theorem scanInv_elim {o cl : Bool} {ents : List FSEntry} {n : Node}
    (h : ScanInv (.mk o cl ents) n) :
    ∀ (i : Nat) (e : FSEntry) (c : Node),
      ents[i]? = some e → n.children[i]? = some c → KidOK e c := by
  cases h with
  | mk h => exact h

theorem corr_nil : Corr [] [] := by
  intro i e c he _
  simp at he

theorem corr_extend (es es2 : List FSEntry) (cs : List Node)
    (hlen : cs.length = es.length) (h : Corr es cs) : Corr (es ++ es2) cs := by
  intro i e c he hc
  have hi : i < cs.length := (List.getElem?_eq_some.mp hc).1
  rw [List.getElem?_append, if_pos (by omega : i < es.length)] at he
  exact h i e c he hc

theorem corr_append (es : List FSEntry) (cs : List Node) (e : FSEntry)
    (c : Node) (hlen : cs.length = es.length) (h : Corr es cs)
    (hk : KidOK e c) : Corr (es ++ [e]) (cs ++ [c]) := by
  intro i e2 c2 he hc
  rw [List.getElem?_append] at he
  rw [List.getElem?_append] at hc
  by_cases hi : i < es.length
  · rw [if_pos hi] at he
    rw [if_pos (by omega)] at hc
    exact h i e2 c2 he hc
  · rw [if_neg hi] at he
    rw [if_neg (by omega)] at hc
    by_cases hieq : i = es.length
    · rw [hieq, Nat.sub_self] at he
      rw [hlen] at hc
      rw [hieq, Nat.sub_self] at hc
      simp at he hc
      rw [← he, ← hc]
      exact hk
    · have h1 : i - es.length ≥ 1 := by omega
      cases hd : i - es.length with
      | zero => omega
      | succ k => rw [hd] at he; simp at he

theorem flushBatch_children (ctx : Ctx) (snk : Sink) (node : Node) (acc : Int) :
    (flushBatch ctx snk node acc).1.children = node.children := by
  unfold flushBatch
  split_ifs <;> simp

theorem processEntry_spec (ctx : Ctx) (snk : Sink) (node : Node) (e : FSEntry)
    (hsub : ∀ nm sub, e = FSEntry.dir nm sub →
      ∀ c2 s2 n2, ScanInv sub (scanFS c2 s2 n2 sub).1) :
    ∃ c, (processEntry ctx snk node e).1.children = node.children ++ [c] ∧
      KidOK e c := by
  cases e with
  | symlink nm =>
    exact ⟨entryChild (.symlink nm), by simp [processEntry], KidOK.symlink rfl⟩
  | file nm sz ok =>
    cases ok with
    | true =>
      exact ⟨(entryChild (.file nm sz true)).setSize sz,
        by simp [processEntry], KidOK.file (by simp)⟩
    | false =>
      exact ⟨entryChild (.file nm sz false),
        by simp [processEntry], KidOK.file (by simp)⟩
  | dir nm sub =>
    exact ⟨(scanFS ctx snk nm sub).1, by simp [processEntry],
      KidOK.dir (hsub nm sub rfl ctx snk nm)⟩

/-- The batch loop maintains the position-wise correspondence: starting from
a node whose children already correspond to the `done` prefix, it extends
them to correspond to `done ++ rem` (stopping early on cancellation leaves
the correspondence on the prefix built so far). -/
theorem scanEntries_corr (rem : List FSEntry) :
    ∀ (ctx : Ctx) (snk : Sink) (node : Node) (cnt : Nat) (acc : Int)
      (done : List FSEntry),
    (∀ nm sub, FSEntry.dir nm sub ∈ rem →
      ∀ c2 s2 n2, ScanInv sub (scanFS c2 s2 n2 sub).1) →
    node.children.length = done.length → Corr done node.children →
    Corr (done ++ rem) (scanEntries ctx snk node rem cnt acc).1.children := by
  induction rem with
  | nil =>
    intro ctx snk node cnt acc done _ hlen hcorr
    have hch : (scanEntries ctx snk node [] cnt acc).1.children
        = node.children := by
      simp only [scanEntries]
      exact flushBatch_children ctx snk node acc
    rw [List.append_nil, hch]
    exact hcorr
  | cons e rest ih =>
    intro ctx snk node cnt acc done hsub hlen hcorr
    have hsubrest : ∀ nm sub, FSEntry.dir nm sub ∈ rest →
        ∀ c2 s2 n2, ScanInv sub (scanFS c2 s2 n2 sub).1 :=
      fun nm sub h => hsub nm sub (List.mem_cons_of_mem e h)
    have hsube : ∀ nm sub, e = FSEntry.dir nm sub →
        ∀ c2 s2 n2, ScanInv sub (scanFS c2 s2 n2 sub).1 :=
      fun nm sub h => hsub nm sub (h ▸ List.mem_cons_self e rest)
    have hstep : ∀ (node2 : Node), node2.children = node.children →
        ∀ (ctx2 : Ctx) (snk2 : Sink) (cnt2 : Nat) (acc2 : Int),
        Corr (done ++ e :: rest)
          (scanEntries (processEntry ctx2 snk2 node2 e).2.1
            (processEntry ctx2 snk2 node2 e).2.2.1
            (processEntry ctx2 snk2 node2 e).1 rest cnt2 acc2).1.children := by
      intro node2 hch2 ctx2 snk2 cnt2 acc2
      obtain ⟨c, hc1, hc2⟩ := processEntry_spec ctx2 snk2 node2 e hsube
      rw [hch2] at hc1
      have hres := ih (processEntry ctx2 snk2 node2 e).2.1
        (processEntry ctx2 snk2 node2 e).2.2.1
        (processEntry ctx2 snk2 node2 e).1 cnt2 acc2 (done ++ [e]) hsubrest
        (by rw [hc1]; simp [hlen])
        (by rw [hc1]; exact corr_append done node.children e c hlen hcorr hc2)
      rw [List.append_assoc] at hres
      simpa using hres
    simp only [scanEntries]
    by_cases hcnt : cnt = 0
    · rw [if_pos hcnt]
      by_cases hcancel : (ctxCheck (flushBatch ctx snk node acc).2.1).1 = true
      · rw [if_pos hcancel]
        have hch : (flushBatch ctx snk node acc).1.children = node.children :=
          flushBatch_children ctx snk node acc
        show Corr (done ++ e :: rest) (flushBatch ctx snk node acc).1.children
        rw [hch]
        exact corr_extend done (e :: rest) node.children hlen hcorr
      · rw [if_neg hcancel]
        exact hstep (flushBatch ctx snk node acc).1
          (flushBatch_children ctx snk node acc) _ _ _ _
    · rw [if_neg hcnt]
      exact hstep node rfl _ _ _ _

theorem sizeOf_dir_mem (nm : String) (sub : FS) (o cl : Bool)
    (ents : List FSEntry) (h : FSEntry.dir nm sub ∈ ents) :
    sizeOf sub < sizeOf (FS.mk o cl ents) := by
  have h1 : sizeOf (FSEntry.dir nm sub) < sizeOf ents :=
    List.sizeOf_lt_of_mem h
  simp only [FSEntry.dir.sizeOf_spec, FS.mk.sizeOf_spec] at *
  omega

/-- The children a directory scan produces: none (cancelled at entry, or
open failed), or exactly what the batch loop built. -/
theorem scanFS_children (ctx : Ctx) (snk : Sink) (nm : String) (o cl : Bool)
    (ents : List FSEntry) :
    (scanFS ctx snk nm (FS.mk o cl ents)).1.children = [] ∨
    (scanFS ctx snk nm (FS.mk o cl ents)).1.children
      = (scanEntries (ctxCheck ctx).2 snk (Node.mk nm "" true 0 [] false 0 0)
          ents 0 0).1.children := by
  simp only [scanFS]
  by_cases h1 : (ctxCheck ctx).1 = true
  · rw [if_pos h1]
    left
    rfl
  · rw [if_neg h1]
    by_cases h2 : o = false
    · rw [if_pos h2]
      left
      simp
    · rw [if_neg h2]
      right
      split_ifs <;> simp

/-- The scanner invariant holds for every directory scan, by strong
induction on the size of the world. -/
theorem scanFS_inv_aux : ∀ (N : Nat) (fs : FS), sizeOf fs ≤ N →
    ∀ (ctx : Ctx) (snk : Sink) (nm : String),
      ScanInv fs (scanFS ctx snk nm fs).1 := by
  intro N
  induction N with
  | zero =>
    intro fs h
    cases fs with
    | mk o cl ents =>
      simp only [FS.mk.sizeOf_spec] at h
      omega
  | succ n ih =>
    intro fs hsz ctx snk nm
    cases fs with
    | mk o cl ents =>
      have hsub : ∀ nm2 sub, FSEntry.dir nm2 sub ∈ ents →
          ∀ c2 s2 n2, ScanInv sub (scanFS c2 s2 n2 sub).1 := by
        intro nm2 sub hmem c2 s2 n2
        apply ih sub ?_ c2 s2 n2
        have := sizeOf_dir_mem nm2 sub o cl ents hmem
        omega
      constructor
      intro i e c hi hc
      rcases scanFS_children ctx snk nm o cl ents with hch | hch
      · rw [hch] at hc
        simp at hc
      · rw [hch] at hc
        have hcorr := scanEntries_corr ents (ctxCheck ctx).2 snk
          (Node.mk nm "" true 0 [] false 0 0) 0 0 [] hsub (by simp) corr_nil
        exact hcorr i e c (by simpa using hi) hc

theorem scanFS_inv (fs : FS) (ctx : Ctx) (snk : Sink) (nm : String) :
    ScanInv fs (scanFS ctx snk nm fs).1 :=
  scanFS_inv_aux (sizeOf fs) fs le_rfl ctx snk nm

/-! ## C3 — the symlink policy -/

/-- **C3**: for every symlink directory entry encountered by the scanner,
the `Node` appended for it has `is_dir` false, an empty children list, and
size zero, in every tree the scanner produces: every successful `Scan`
result satisfies the per-entry invariant `ScanInv`, and under that
invariant the child at every symlink entry's position, at every directory
level, is exactly the zero-size non-directory leaf. -/
theorem scanner_symlink_spec (ctx : Ctx) (snk : Sink) (absOk : Bool)
    (absRoot : String) (lstat : Option LstatInfo) (fs : FS)
    (r : Node × Ctx × Sink)
    (h : scanGo ctx snk absOk absRoot lstat fs = .ok r) :
    ScanInv fs r.1 ∧
    (∀ (fs2 : FS) (n2 : Node), ScanInv fs2 n2 →
      ∀ (i : Nat) (nm : String) (c : Node),
        fs2.entries[i]? = some (.symlink nm) → n2.children[i]? = some c →
        c.isDir = false ∧ c.children = [] ∧ c.size = 0) := by
  constructor
  · unfold scanGo at h
    by_cases h1 : absOk = false
    · rw [if_pos h1] at h
      exact absurd h (by simp)
    · rw [if_neg h1] at h
      cases lstat with
      | none => exact absurd h (by simp)
      | some info =>
        dsimp only at h
        by_cases h2 : info.isDir = false
        · rw [if_pos h2] at h
          simp only [Except.ok.injEq] at h
          rw [← h]
          cases fs with
          | mk o cl ents =>
            constructor
            intro i e c hi hc
            simp [Node.setSize] at hc
        · rw [if_neg h2] at h
          simp only [Except.ok.injEq] at h
          rw [← h]
          exact scanFS_inv fs ctx snk absRoot
  · intro fs2 n2 hinv i nm c hi hc
    cases fs2 with
    | mk o cl ents =>
      have hk := scanInv_elim hinv i (.symlink nm) c hi hc
      cases hk with
      | symlink h => rw [h]; exact ⟨rfl, rfl, rfl⟩

/-- Witness for C3 on a one-symlink world scanned with a nil sink and an
uncancelled token. -/
theorem scanner_symlink_spec_witness :
    (scanGo none wNilSink true "r" (some ⟨true, 0⟩) wSymFS
      = .ok (Node.mk "r" "" true 0 [Node.mk "s" "" false 0 [] false 0 0]
          false 0 0, (none : Ctx), wNilSink)) ∧
    (ScanInv wSymFS
        ((Node.mk "r" "" true 0 [Node.mk "s" "" false 0 [] false 0 0]
          false 0 0, (none : Ctx), wNilSink)).1 ∧
     (∀ (fs2 : FS) (n2 : Node), ScanInv fs2 n2 →
       ∀ (i : Nat) (nm : String) (c : Node),
         fs2.entries[i]? = some (.symlink nm) → n2.children[i]? = some c →
         c.isDir = false ∧ c.children = [] ∧ c.size = 0)) :=
  ⟨rfl, scanner_symlink_spec none wNilSink true "r" (some ⟨true, 0⟩) wSymFS
    (Node.mk "r" "" true 0 [Node.mk "s" "" false 0 [] false 0 0] false 0 0,
      (none : Ctx), wNilSink) rfl⟩

/-! ## C5 — error handling and cancellation of Scan -/

/-- **C5** (amended): `Scan` returns a non-nil error if and only if
resolving (`filepath.Abs`) or `Lstat`-ing the root path fails — in
particular, for EVERY cancellation token, cancelled before or during the
scan or not at all, a scan whose root resolves still returns a (possibly
partial) tree with a nil error.  Per-entry failures do not abort the scan,
but only DIRECTORY failures (open/close) are recorded on the corresponding
node's `err`; a FILE entry whose `entry.Info()` stat fails is silently
skipped — its child stays a zero-size node with `err` still nil (this last
point is where the claim as stated fails). -/
theorem scan_error_spec (ctx : Ctx) (snk : Sink) (absOk : Bool)
    (absRoot : String) (lstat : Option LstatInfo) (fs : FS) :
    ((∃ r, scanGo ctx snk absOk absRoot lstat fs = .ok r)
      ↔ (absOk = true ∧ lstat.isSome = true)) ∧
    (∀ (cl : Bool) (ents : List FSEntry) (nm : String),
      (ctxCheck ctx).1 = false →
      (scanFS ctx snk nm (FS.mk false cl ents)).1.err = true ∧
      (scanFS ctx snk nm (FS.mk false cl ents)).1.children = []) ∧
    (∀ (fs2 : FS) (n2 : Node), ScanInv fs2 n2 →
      ∀ (i : Nat) (nm : String) (sz : Int) (c : Node),
        fs2.entries[i]? = some (.file nm sz false) →
        n2.children[i]? = some c → c.err = false ∧ c.size = 0) := by
  refine ⟨?_, ?_, ?_⟩
  · constructor
    · rintro ⟨r, hr⟩
      unfold scanGo at hr
      by_cases h1 : absOk = false
      · rw [if_pos h1] at hr
        exact absurd hr (by simp)
      · rw [if_neg h1] at hr
        cases lstat with
        | none => exact absurd hr (by simp)
        | some info => exact ⟨by simpa using h1, rfl⟩
    · rintro ⟨h1, h2⟩
      cases lstat with
      | none => simp at h2
      | some info =>
        unfold scanGo
        rw [if_neg (by simp [h1])]
        dsimp only
        by_cases h3 : info.isDir = false
        · rw [if_pos h3]
          exact ⟨_, rfl⟩
        · rw [if_neg h3]
          exact ⟨_, rfl⟩
  · intro cl ents nm hck
    simp only [scanFS]
    rw [if_neg (by simp [hck])]
    simp
  · intro fs2 n2 hinv i nm sz c hi hc
    cases fs2 with
    | mk o cl ents =>
      have hk := scanInv_elim hinv i (.file nm sz false) c hi hc
      cases hk with
      | file h =>
        rw [h]
        exact ⟨rfl, rfl⟩

/-- **C5** counterexample: the world `wBadStatFS` holds one file entry
whose stat fails; the scan (uncancelled, nil sink) keeps the entry as a
zero-size child with NO error recorded anywhere — `err` is nil both on the
child and on its directory — refuting "per-entry failures are recorded on
the corresponding Node's err field". -/
theorem scan_error_counterexample :
    (scanFS none wNilSink "r" wBadStatFS).1.children
      = [Node.mk "a" "" false 0 [] false 0 0] ∧
    (scanFS none wNilSink "r" wBadStatFS).1.err = false := by
  exact ⟨rfl, rfl⟩

/-! ## C6 — a non-directory root -/

/-- **C6** (amended): for every root path whose `Lstat` resolves to a
non-directory, `Scan` returns a single-node tree (no children) whose size
equals the size reported by `Lstat` (with a nil error), and sends exactly
one progress emission carrying that size WHEN that size is non-zero, the
sink is attached with free capacity and the token is not cancelled;
otherwise — in particular for a zero-size root — it sends none
(`sendProgress` drops zero sizes, nil channels, cancelled contexts and full
buffers). -/
theorem scan_nondir_spec (ctx : Ctx) (snk : Sink) (absRoot : String)
    (sz : Int) (fs : FS) :
    ∃ n ctx2 snk2,
      scanGo ctx snk true absRoot (some ⟨false, sz⟩) fs = .ok (n, ctx2, snk2) ∧
      n.children = [] ∧ n.size = sz ∧ n.name = absRoot ∧ n.isDir = false ∧
      snk2.sent = (if snk.present = true ∧ ¬ sz = 0 ∧ (ctxCheck ctx).1 = false
          ∧ ¬ snk.free = 0 then snk.sent ++ [sz] else snk.sent) := by
  refine ⟨(Node.mk absRoot "" false 0 [] false 0 0).setSize sz,
    (sendProgress ctx snk sz).1, (sendProgress ctx snk sz).2, rfl,
    by simp, by simp, by simp, by simp, ?_⟩
  unfold sendProgress
  by_cases h1 : snk.present = false
  · rw [if_pos h1]
    rw [if_neg (by simp [h1])]
  · rw [if_neg h1]
    by_cases h2 : sz = 0
    · rw [if_pos h2]
      rw [if_neg (by simp [h2])]
    · rw [if_neg h2]
      by_cases h3 : (ctxCheck ctx).1 = true
      · rw [if_pos h3]
        rw [if_neg (by simp [h3])]
      · rw [if_neg h3]
        by_cases h4 : snk.free = 0
        · rw [if_pos h4]
          rw [if_neg (by simp [h4])]
        · rw [if_neg h4]
          rw [if_pos ⟨by simpa using h1, h2, by simpa using h3, h4⟩]

/-- **C6** counterexample: a zero-size non-directory root, scanned with an
attached progress sink that has free capacity and an uncancelled token,
produces NO progress emission — not "exactly one progress emission carrying
that size" — because `sendProgress` drops zero byte counts. -/
theorem scan_nondir_counterexample :
    scanGo none wSink1 true "f" (some ⟨false, 0⟩) (FS.mk true true [])
      = .ok (Node.mk "f" "" false 0 [] false 0 0, (none : Ctx), wSink1) ∧
    wSink1.sent = [] := by
  exact ⟨rfl, rfl⟩
